import Mathlib

/-!
Verification of the MAPIE prediction-interval regressor.

This file gives a shallow embedding, in Lean 4, of the two source files of the
repository (`mapie/estimators.py` and `mapie/utils.py`) and proves, or refutes,
a list of claims about them.

Modelling conventions:
* Machine floats are modelled by `ℚ` (all operations used by the code are exact
  field operations, comparisons, sorting and selection, so the algorithms are
  rational-valued whenever the inputs are).
* A fitted scikit-learn regressor is a prediction function `Row → ℚ`; a base
  estimator is a function from a training set to such a fitted function, which
  captures exactly the `fit`/`predict`/`clone` capability contract that the
  code relies on (cloning an unfitted estimator is the identity in this view).
* Python exceptions are modelled with `Except`: for `fit` the error value
  carries the `MapieRegressor` object as it stands when the exception is
  raised, matching the mutation-then-raise semantics of Python methods.
* `np.nan` entries (used only by `check_nan_in_aposteriori_prediction`) are
  modelled by `Option ℚ`, with `none` standing for NaN.
* `numpy`'s `np.quantile` with `interpolation="lower"`/`"higher"` computes the
  sorted value at index `⌊q*(n-1)⌋` / `⌈q*(n-1)⌉`; `np.median` averages the two
  middle sorted values.  Both are reproduced exactly.
-/

/-- A sample: one row of the feature matrix. -/
abbrev Row := List ℚ

/-- A base estimator: training data in, fitted prediction function out.
This models the `fit`/`predict`/`clone` contract of a scikit-learn regressor. -/
abbrev BaseEstimator := List Row → List ℚ → (Row → ℚ)

/-- Arithmetic mean of a list of rationals (division by zero gives 0,
matching `ℚ` division). -/
def listMean (xs : List ℚ) : ℚ := xs.sum / (xs.length : ℚ)

/-- Models `sklearn.linear_model.LinearRegression()` — the default base
estimator installed by `_check_parameters` when `estimator is None` — as
ordinary least squares on the first feature (the closed form for
single-feature data; a zero denominator yields slope 0 by `ℚ` division). -/
def linearRegression : BaseEstimator := fun X y =>
  let xs := X.map (fun row => row.headD 0)
  let xbar := listMean xs
  let ybar := listMean y
  let sxy := (List.zipWith (fun a b => (a - xbar) * (b - ybar)) xs y).sum
  let sxx := (xs.map (fun a => (a - xbar) * (a - xbar))).sum
  fun row => ybar + (sxy / sxx) * (row.headD 0 - xbar)

/-- `np.sort`: the ascending sorted copy of a list. -/
def sortedAsc (xs : List ℚ) : List ℚ := List.insertionSort (· ≤ ·) xs

/-- Value of `np.quantile(xs, q, interpolation="lower")`: the sorted value at
index `⌊q * (len - 1)⌋` (the "nearest lower ranked value" rule). -/
def quantileLowerVal (xs : List ℚ) (q : ℚ) : ℚ :=
  (sortedAsc xs).getD (Int.toNat (Int.floor (q * ((xs.length : ℚ) - 1)))) 0

/-- Value of `np.quantile(xs, q, interpolation="higher")`: the sorted value at
index `⌈q * (len - 1)⌉` (the "nearest higher ranked value" rule). -/
def quantileHigherVal (xs : List ℚ) (q : ℚ) : ℚ :=
  (sortedAsc xs).getD (Int.toNat (Int.ceil (q * ((xs.length : ℚ) - 1)))) 0

/-- `np.quantile(xs, q, interpolation="lower")`, with `none` modelling the
`ValueError` numpy raises on an empty array or a probability outside [0,1]. -/
def npQuantileLower (xs : List ℚ) (q : ℚ) : Option ℚ :=
  if xs.length = 0 ∨ q < 0 ∨ 1 < q then none else some (quantileLowerVal xs q)

/-- `np.quantile(xs, q, interpolation="higher")`, with `none` modelling the
`ValueError` numpy raises on an empty array or a probability outside [0,1]. -/
def npQuantileHigher (xs : List ℚ) (q : ℚ) : Option ℚ :=
  if xs.length = 0 ∨ q < 0 ∨ 1 < q then none else some (quantileHigherVal xs q)

/-- `np.median` of a nonempty list: middle sorted value, or the average of the
two middle sorted values for even length. -/
def npMedian (xs : List ℚ) : ℚ :=
  let s := sortedAsc xs
  let n := xs.length
  if n % 2 = 1 then s.getD (n / 2) 0
  else (s.getD (n / 2 - 1) 0 + s.getD (n / 2) 0) / 2

/-- `np.min` along a nonempty list (0 on the empty list, unreachable here). -/
def listMin : List ℚ → ℚ
  | [] => 0
  | a :: t => t.foldl (fun x y => min x y) a

/-- `np.max` along a nonempty list (0 on the empty list, unreachable here). -/
def listMax : List ℚ → ℚ
  | [] => 0
  | a :: t => t.foldl (fun x y => max x y) a

/-- `sklearn` K-fold sizes: `n // k` per fold, with the first `n % k` folds one
larger. -/
def foldSizes (n k : ℕ) : List ℕ :=
  (List.range k).map (fun i => if i < n % k then n / k + 1 else n / k)

/-- Cut a list into consecutive chunks of the given sizes. -/
def takeChunks : List ℕ → List ℕ → List (List ℕ)
  | [], _ => []
  | s :: ss, xs => xs.take s :: takeChunks ss (xs.drop s)

/-- `sklearn.model_selection.KFold(...).split`: validation folds are the
consecutive chunks of `order` (the index order: `arange(n)`, permuted first if
shuffling); the train fold is every index of `arange(n)` not in the validation
fold, in ascending order. -/
def kfoldSplits (n k : ℕ) (order : List ℕ) : List (List ℕ × List ℕ) :=
  (takeChunks (foldSizes n k) order).map
    (fun test => ((List.range n).filter (fun i => !(test.contains i)), test))

/-- `sklearn.model_selection.LeaveOneOut().split`: fold `i` validates on the
single index `i` and trains on all the others. -/
def looSplits (n : ℕ) : List (List ℕ × List ℕ) :=
  (List.range n).map (fun i => ((List.range n).filter (fun j => !(j == i)), [i]))

/-- The `MapieRegressor` object: the seven configuration attributes set by
`__init__`, followed by the four fitted attributes created by `fit`
(modelled as `Option`s, `none` meaning "attribute not set"). -/
structure MapieRegressor where
  estimator : Option BaseEstimator
  alpha : ℚ
  method : String
  n_splits : ℕ
  shuffle : Bool
  return_pred : String
  random_state : Option ℤ
  single_estimator_ : Option (Row → ℚ) := none
  estimators_ : Option (List (Row → ℚ)) := none
  residuals_ : Option (List ℚ) := none
  k_ : Option (List ℕ) := none

/-- `MapieRegressor.valid_methods`. -/
def valid_methods : List String :=
  [("naive"), ("jackknife"), ("jackknife_plus"), ("jackknife_minmax"),
   ("cv"), ("cv_plus"), ("cv_minmax")]

/-- `MapieRegressor.valid_return_preds`. -/
def valid_return_preds : List String := [("single"), ("median")]

/-- `MapieRegressor._check_parameters`: validate `alpha`, `method` and
`return_pred` in that order (raising on the first failure, with the object
untouched), then default a missing estimator to `LinearRegression()`. -/
def checkParameters (r : MapieRegressor) : Except MapieRegressor MapieRegressor :=
  if ¬ (0 < r.alpha ∧ r.alpha < 1) then Except.error r
  else if ¬ (r.method ∈ valid_methods) then Except.error r
  else if ¬ (r.return_pred ∈ valid_return_preds) then Except.error r
  else
    match r.estimator with
    | none => Except.ok { r with estimator := some linearRegression }
    | some _ => Except.ok r

/-- The numpy permutation drawn by a shuffling splitter: seed and length in,
index order out.  It is kept abstract (a parameter of `fit`) because the claims
never depend on the concrete permutation, only on it being a permutation. -/
abbrev Shuffler := Option ℤ → ℕ → List ℕ

/-- `MapieRegressor._select_cv`: for "cv"-prefixed methods force
`random_state = None` when not shuffling and build a `KFold` splitter, which
cuts the index order (the abstract permutation when shuffling, `arange(n)`
otherwise) into validation chunks and requires `2 ≤ n_splits ≤ n`; for
"jackknife"-prefixed methods build a `LeaveOneOut` splitter (which requires at
least 2 samples); otherwise raise `ValueError`.  Returns the (possibly
mutated) object together with the splitter's output. -/
def selectCV (shuffler : Shuffler) (r : MapieRegressor) (n : ℕ) :
    Except MapieRegressor (MapieRegressor × List (List ℕ × List ℕ)) :=
  if r.method.startsWith ("cv") then
    if r.shuffle then
      if 2 ≤ r.n_splits ∧ r.n_splits ≤ n then
        Except.ok (r, kfoldSplits n r.n_splits (shuffler r.random_state n))
      else Except.error r
    else
      if 2 ≤ r.n_splits ∧ r.n_splits ≤ n then
        Except.ok ({ r with random_state := none },
          kfoldSplits n r.n_splits (List.range n))
      else Except.error { r with random_state := none }
  else if r.method.startsWith ("jackknife") then
    if 2 ≤ n then Except.ok (r, looSplits n) else Except.error r
  else Except.error r

/-- `xs[idxs]`: numpy fancy indexing of a list by a list of indices. -/
def selectIdx (xs : List α) (idxs : List ℕ) (d : α) : List α :=
  idxs.map (fun i => xs.getD i d)

/-- `np.abs(y - p)`, elementwise. -/
def absDiff (y p : List ℚ) : List ℚ := List.zipWith (fun a b => |a - b|) y p

/-- The fold models: for each `(train_fold, val_fold)` split, a clone of the
base estimator fitted on `X[train_fold], y[train_fold]`. -/
def trainedEstimators (est : BaseEstimator) (X : List Row) (y : List ℚ)
    (splits : List (List ℕ × List ℕ)) : List (Row → ℚ) :=
  splits.map (fun tv => est (selectIdx X tv.1 []) (selectIdx y tv.1 0))

/-- The loop writing `self.k_[val_fold] = k` for `k = 0, 1, ...`
(`k` is the running fold counter from `enumerate`). -/
def buildKAux (k : ℕ) (splits : List (List ℕ × List ℕ)) (acc : List ℕ) : List ℕ :=
  match splits with
  | [] => acc
  | p :: rest => buildKAux (k + 1) rest (p.2.foldl (fun b i => b.set i k) acc)

/-- `self.k_`: the fold-assignment vector, starting from `np.empty_like(y)`
(modelled as zeros; every entry is overwritten since the folds cover `[0,n)`). -/
def buildK (n : ℕ) (splits : List (List ℕ × List ℕ)) : List ℕ :=
  buildKAux 0 splits (List.replicate n 0)

/-- The loop writing `y_pred[val_fold] = e.predict(X[val_fold])`, one fitted
fold model per split. -/
def buildOofAux (X : List Row) (pairs : List ((List ℕ × List ℕ) × (Row → ℚ)))
    (acc : List ℚ) : List ℚ :=
  match pairs with
  | [] => acc
  | p :: rest =>
      buildOofAux X rest (p.1.2.foldl (fun b i => b.set i (p.2 (X.getD i []))) acc)

/-- The out-of-fold prediction vector `y_pred` built by `fit` for non-naive
methods, starting from `np.empty_like(y)` (modelled as zeros; every entry is
overwritten since the folds cover `[0,n)`). -/
def buildOof (n : ℕ) (splits : List (List ℕ × List ℕ)) (ests : List (Row → ℚ))
    (X : List Row) : List ℚ :=
  buildOofAux X (splits.zip ests) (List.replicate n 0)

/-- The non-naive tail of `fit`: train the fold models, record the fold
assignment, compute out-of-fold predictions and store the residuals. -/
def fitFolds (est : BaseEstimator) (r : MapieRegressor) (X : List Row) (y : List ℚ)
    (splits : List (List ℕ × List ℕ)) : MapieRegressor :=
  { r with
    estimators_ := some (trainedEstimators est X y splits),
    k_ := some (buildK y.length splits),
    residuals_ := some
      (absDiff y (buildOof y.length splits (trainedEstimators est X y splits) X)) }

/-- `MapieRegressor.fit`: validate parameters, check `X, y` (`check_X_y`
demands equal lengths and at least one sample), fit the single estimator on all
the data, then either take in-sample predictions (`naive`) or run the
cross-validation loop; finally store `residuals_ = |y - y_pred|`.  The error
value is the object as mutated up to the raise point. -/
def fit (shuffler : Shuffler) (r0 : MapieRegressor) (X : List Row) (y : List ℚ) :
    Except MapieRegressor MapieRegressor :=
  match checkParameters r0 with
  | Except.error r => Except.error r
  | Except.ok r1 =>
    if X.length = y.length ∧ 0 < y.length then
      match r1.estimator with
      | none => Except.error r1
      | some est =>
        if r1.method = ("naive") then
          Except.ok { r1 with single_estimator_ := some (est X y),
                              residuals_ := some (absDiff y (X.map (est X y))) }
        else
          match selectCV shuffler
              { r1 with single_estimator_ := some (est X y) } y.length with
          | Except.error r => Except.error r
          | Except.ok (r3, splits) => Except.ok (fitFolds est r3 X y splits)
    else Except.error r1

/-- `y_pred_multi[:, self.k_]` applied to one row: re-index the per-fold
prediction row by the fold-assignment vector. -/
def reindexRow (kvec : List ℕ) (row : List ℚ) : List ℚ :=
  kvec.map (fun c => row.getD c 0)

/-- `np.stack([a, b, c], axis=1)` for three equal-length vectors. -/
def zip3 (a b c : List ℚ) : List (ℚ × ℚ × ℚ) :=
  List.zipWith (fun x yz => (x, yz.1, yz.2)) a (b.zip c)

/-- The interval table emitted by `predict`'s plus/minmax (non-constant)
branch: the matrix `multi` stacks the fold-model predictions of each test row
(`np.stack(..., axis=1)`); the center is `y_pred` or the row-wise median of
`multi`; for "cv_plus" the matrix columns are re-indexed by `k_`; "*plus"
bounds are `multi2[i,j] ∓ res[j]`, "*minmax" bounds are
`min/max(multi2[i,:]) ∓ res[j]`; finally per-row lower/upper quantiles at
`alpha` / `1 - alpha`.  (In the source these are the local variables
`y_pred_multi`, `lower_bounds`, `upper_bounds`; they are inlined here.) -/
def predictEnsemble (r : MapieRegressor) (Xtest : List Row) (single : Row → ℚ)
    (ests : List (Row → ℚ)) : Except Unit (List (ℚ × ℚ × ℚ)) :=
  if r.method.endsWith ("plus") then
    match ((if r.method = ("cv_plus")
        then (Xtest.map (fun x => ests.map (fun e => e x))).map
          (reindexRow (r.k_.getD []))
        else Xtest.map (fun x => ests.map (fun e => e x))).map
          (fun row => List.zipWith (fun p rr => p - rr) row
            (r.residuals_.getD []))).mapM
        (fun row => npQuantileLower row r.alpha),
      ((if r.method = ("cv_plus")
        then (Xtest.map (fun x => ests.map (fun e => e x))).map
          (reindexRow (r.k_.getD []))
        else Xtest.map (fun x => ests.map (fun e => e x))).map
          (fun row => List.zipWith (fun p rr => p + rr) row
            (r.residuals_.getD []))).mapM
        (fun row => npQuantileHigher row (1 - r.alpha)) with
    | some ls, some us =>
        Except.ok (zip3
          (if r.return_pred = ("median")
            then (Xtest.map (fun x => ests.map (fun e => e x))).map npMedian
            else Xtest.map single) ls us)
    | _, _ => Except.error ()
  else if r.method.endsWith ("minmax") then
    match ((if r.method = ("cv_plus")
        then (Xtest.map (fun x => ests.map (fun e => e x))).map
          (reindexRow (r.k_.getD []))
        else Xtest.map (fun x => ests.map (fun e => e x))).map
          (fun row => (r.residuals_.getD []).map
            (fun rr => listMin row - rr))).mapM
        (fun row => npQuantileLower row r.alpha),
      ((if r.method = ("cv_plus")
        then (Xtest.map (fun x => ests.map (fun e => e x))).map
          (reindexRow (r.k_.getD []))
        else Xtest.map (fun x => ests.map (fun e => e x))).map
          (fun row => (r.residuals_.getD []).map
            (fun rr => listMax row + rr))).mapM
        (fun row => npQuantileHigher row (1 - r.alpha)) with
    | some ls, some us =>
        Except.ok (zip3
          (if r.return_pred = ("median")
            then (Xtest.map (fun x => ests.map (fun e => e x))).map npMedian
            else Xtest.map single) ls us)
    | _, _ => Except.error ()
  else Except.error ()

/-- `MapieRegressor.predict`: centers from the single estimator (or the
row-wise median of the fold predictions when `return_pred == "median"`), then
the method-specific interval construction.  `Except.error ()` models the
exceptions Python can raise on this path (`check_is_fitted`, a missing
`estimators_` attribute, `np.quantile` domain errors, and the final
`ValueError("Invalid method.")`). -/
def predict (r : MapieRegressor) (Xtest : List Row) :
    Except Unit (List (ℚ × ℚ × ℚ)) :=
  match r.single_estimator_ with
  | none => Except.error ()
  | some single =>
    if r.method = ("naive") ∨ r.method = ("jackknife") ∨ r.method = ("cv") then
      match npQuantileHigher (r.residuals_.getD []) (1 - r.alpha) with
      | none => Except.error ()
      | some q => Except.ok ((Xtest.map single).map (fun c => (c, c - q, c + q)))
    else
      match r.estimators_ with
      | none => Except.error ()
      | some ests => predictEnsemble r Xtest single ests

/-- One full run: `fit` then `predict`, collapsing either exception to a bare
error (the raised message does not depend on the state we compare runs over). -/
def fitPredict (shuffler : Shuffler) (r0 : MapieRegressor) (X : List Row)
    (y : List ℚ) (Xtest : List Row) : Except Unit (List (ℚ × ℚ × ℚ)) :=
  match fit shuffler r0 X y with
  | Except.error _ => Except.error ()
  | Except.ok r => predict r Xtest

/-- `mapie.utils.check_alpha_and_n_samples`: raise `ValueError` at the first
alpha with `n < 1/alpha` or `n < 1/(1-alpha)`. -/
def check_alpha_and_n_samples : List ℚ → ℕ → Except Unit Unit
  | [], _ => Except.ok ()
  | a :: rest, n =>
      if (n : ℚ) < 1 / a ∨ (n : ℚ) < 1 / (1 - a) then Except.error ()
      else check_alpha_and_n_samples rest n

/-- `mapie.utils.check_nan_in_aposteriori_prediction`, i.e.
`np.any(np.all(np.isnan(X), axis=1), axis=0)`: `true` exactly when the warning
is emitted.  The function never raises and returns nothing, so the emitted
flag is its only observable effect. -/
def check_nan_in_aposteriori_prediction (X : List (List (Option ℚ))) : Bool :=
  (X.map (fun row => row.all (fun v => v.isNone))).any (fun b => b)

/-- The trivial permutation source: shuffling is modelled abstractly, and all
concrete witnesses run with shuffling disabled, where the identity order is the
faithful one. -/
def shuffler0 : Shuffler := fun _ n => List.range n

/-- A base estimator predicting the constant 0 (used for concrete runs). -/
def estConst : BaseEstimator := fun _ _ _ => 0

/-- A base estimator whose fold models (trained on strict subsets) predict 100
while the full-data model predicts 0.  It honours the `fit`/`predict`/`clone`
contract: its prediction depends only on its own training data. -/
def estCheat : BaseEstimator := fun X _ _ => if X.length < 2 then 100 else 0

/-- Claim C9: the NaN guard warns if and only if some row of its input consists
entirely of NaN entries; it never raises (it is a total function returning only
the warning flag) and callers always proceed. -/
theorem mapie_c9_nan_guard (X : List (List (Option ℚ))) :
    check_nan_in_aposteriori_prediction X = true ↔ ∃ row ∈ X, ∀ v ∈ row, v = none := by
  simp [check_nan_in_aposteriori_prediction, List.any_eq_true, List.all_eq_true,
    Option.isNone_iff_eq_none]

/-- Claim C2 (amended): the utility `check_alpha_and_n_samples` raises exactly
when `n < 1/alpha` or `n < 1/(1-alpha)`; but neither `fit` nor `predict` ever
invokes it, so fitting/predicting with too few samples does not raise (see the
counterexample). -/
theorem mapie_c2_insufficient_samples (alpha : ℚ) (n : ℕ) (h0 : 0 < alpha)
    (h1 : alpha < 1) :
    (check_alpha_and_n_samples [alpha] n = Except.error () ↔
      ((n : ℚ) < 1 / alpha ∨ (n : ℚ) < 1 / (1 - alpha))) := by
  clear h0 h1
  have hdef : check_alpha_and_n_samples [alpha] n =
      (if (n : ℚ) < 1 / alpha ∨ (n : ℚ) < 1 / (1 - alpha) then Except.error ()
       else check_alpha_and_n_samples [] n) := rfl
  have hnil : check_alpha_and_n_samples [] n = Except.ok () := rfl
  rw [hdef]
  by_cases hc : (n : ℚ) < 1 / alpha ∨ (n : ℚ) < 1 / (1 - alpha)
  · rw [if_pos hc]
    exact iff_of_true rfl hc
  · rw [if_neg hc, hnil]
    exact iff_of_false (fun h => Except.noConfusion h) hc

/-- Witness for C2 (amended), at `alpha = 1/10`, `n = 5`. -/
theorem mapie_c2_witness :
    (0 < (1/10 : ℚ)) ∧ ((1/10 : ℚ) < 1) ∧
      (check_alpha_and_n_samples [(1/10 : ℚ)] 5 = Except.error () ↔
        ((5 : ℚ) < 1 / (1/10) ∨ (5 : ℚ) < 1 / (1 - 1/10))) :=
  ⟨by norm_num, by norm_num,
    mapie_c2_insufficient_samples (1/10) 5 (by norm_num) (by norm_num)⟩

/-- The configuration of the C2 counterexample run: 5 training samples,
`alpha = 1/10`, method `naive`, a constant base estimator. -/
def mrC2 : MapieRegressor :=
  { estimator := some estConst, alpha := 1/10, method := ("naive"), n_splits := 5,
    shuffle := true, return_pred := ("single"), random_state := none }

/-- Claim C2 counterexample: with 5 training samples and `alpha = 1/10` the
insufficiency condition `n < 1/alpha` holds and the utility would raise, yet
`fit` followed by `predict` completes and returns an interval — no
insufficient-samples error is raised before (or after) the quantile is
computed. -/
theorem mapie_c2_counterexample :
    ((5 : ℚ) < 1 / mrC2.alpha) ∧
    check_alpha_and_n_samples [mrC2.alpha] 5 = Except.error () ∧
    fitPredict shuffler0 mrC2 [[0],[1],[2],[3],[4]] [1,2,3,4,5] [[0]] =
      Except.ok [(0, -5, 5)] := by
  refine ⟨by norm_num [mrC2], by with_unfolding_all rfl, by with_unfolding_all rfl⟩

/-- Inversion of a successful `_check_parameters`: the three parameter checks
passed, the estimator is present afterwards (defaulted to ordinary least
squares if it was absent), and every other attribute is unchanged. -/
theorem checkParameters_ok (r0 r1 : MapieRegressor)
    (h : checkParameters r0 = Except.ok r1) :
    (0 < r0.alpha ∧ r0.alpha < 1) ∧ r0.method ∈ valid_methods ∧
    r0.return_pred ∈ valid_return_preds ∧
    r1 = { r0 with estimator := r1.estimator } ∧
    ((r0.estimator = none ∧ r1.estimator = some linearRegression) ∨
      r1.estimator = r0.estimator) := by
  unfold checkParameters at h
  split at h
  · exact absurd h (by simp)
  next h1 =>
    split at h
    · exact absurd h (by simp)
    next h2 =>
      split at h
      · exact absurd h (by simp)
      next h3 =>
        rw [not_not] at h1 h2 h3
        split at h
        next hest =>
          injection h with h4
          subst h4
          exact ⟨h1, h2, h3, by simp, Or.inl ⟨hest, rfl⟩⟩
        next est hest =>
          injection h with h4
          subst h4
          exact ⟨h1, h2, h3, by simp, Or.inr rfl⟩

/-- Inversion of a successful `_select_cv`. -/
theorem selectCV_ok (shuffler : Shuffler) (r r3 : MapieRegressor) (n : ℕ)
    (splits : List (List ℕ × List ℕ))
    (h : selectCV shuffler r n = Except.ok (r3, splits)) :
    (r.method.startsWith ("cv") = true ∧ 2 ≤ r.n_splits ∧ r.n_splits ≤ n ∧
      ((r.shuffle = true ∧ r3 = r ∧
          splits = kfoldSplits n r.n_splits (shuffler r.random_state n)) ∨
        (r.shuffle = false ∧ r3 = { r with random_state := none } ∧
          splits = kfoldSplits n r.n_splits (List.range n)))) ∨
    (r.method.startsWith ("cv") = false ∧
      r.method.startsWith ("jackknife") = true ∧ 2 ≤ n ∧
      r3 = r ∧ splits = looSplits n) := by
  unfold selectCV at h
  split at h
  next hcv =>
    split at h
    next hsh =>
      split at h
      next hns =>
        injection h with h4
        injection h4 with h5 h6
        exact Or.inl ⟨hcv, hns.1, hns.2, Or.inl ⟨hsh, h5.symm, h6.symm⟩⟩
      · exact absurd h (by simp)
    next hsh =>
      split at h
      next hns =>
        injection h with h4
        injection h4 with h5 h6
        exact Or.inl ⟨hcv, hns.1, hns.2,
          Or.inr ⟨Bool.not_eq_true _ ▸ eq_false_of_ne_true hsh, h5.symm, h6.symm⟩⟩
      · exact absurd h (by simp)
  next hcv =>
    split at h
    next hjk =>
      split at h
      next hn =>
        injection h with h4
        injection h4 with h5 h6
        exact Or.inr ⟨Bool.not_eq_true _ ▸ eq_false_of_ne_true hcv, hjk, hn,
          h5.symm, h6.symm⟩
      · exact absurd h (by simp)
    · exact absurd h (by simp)

/-- Inversion of a successful `fit`: the parameters were validated, the data
was consistent and nonempty, and the resulting object is exactly the naive or
the cross-validated record. -/
theorem fit_ok (shuffler : Shuffler) (r0 : MapieRegressor) (X : List Row)
    (y : List ℚ) (r : MapieRegressor) (h : fit shuffler r0 X y = Except.ok r) :
    ∃ r1 est, checkParameters r0 = Except.ok r1 ∧ r1.estimator = some est ∧
      X.length = y.length ∧ 0 < y.length ∧
      ((r1.method = ("naive") ∧
          r = { r1 with single_estimator_ := some (est X y),
                        residuals_ := some (absDiff y (X.map (est X y))) }) ∨
        (¬ r1.method = ("naive") ∧ ∃ r3 splits,
          selectCV shuffler { r1 with single_estimator_ := some (est X y) }
              y.length = Except.ok (r3, splits) ∧
          r = fitFolds est r3 X y splits)) := by
  unfold fit at h
  split at h
  · exact absurd h (by simp)
  next r1 hcp =>
    split at h
    next hxy =>
      split at h
      · exact absurd h (by simp)
      next est hest =>
        split at h
        next hnaive =>
          injection h with h4
          exact ⟨r1, est, hcp, hest, hxy.1, hxy.2, Or.inl ⟨hnaive, h4.symm⟩⟩
        next hnn =>
          split at h
          · exact absurd h (by simp)
          next r3 splits hsel =>
            injection h with h4
            exact ⟨r1, est, hcp, hest, hxy.1, hxy.2,
              Or.inr ⟨hnn, r3, splits, hsel, h4.symm⟩⟩
    · exact absurd h (by simp)

/-- Field-by-field description of `_check_parameters`' successful result:
everything except possibly `estimator` is unchanged. -/
theorem checkParameters_fields (r0 r1 : MapieRegressor)
    (h : checkParameters r0 = Except.ok r1) :
    r1.alpha = r0.alpha ∧ r1.method = r0.method ∧ r1.n_splits = r0.n_splits ∧
    r1.shuffle = r0.shuffle ∧ r1.return_pred = r0.return_pred ∧
    r1.random_state = r0.random_state ∧
    r1.single_estimator_ = r0.single_estimator_ ∧
    r1.estimators_ = r0.estimators_ ∧ r1.residuals_ = r0.residuals_ ∧
    r1.k_ = r0.k_ := by
  obtain ⟨-, -, -, hr1, -⟩ := checkParameters_ok r0 r1 h
  rw [hr1]
  simp

/-- Claim C6 (amended): if `alpha` is outside (0,1), or `method` is not one of
the seven valid names, or `return_pred` is not "single"/"median", then `fit`
raises immediately at entry, before any model is trained, and the raised-with
object is the regressor exactly as it was (no attribute — fitted or
configuration — is created or modified).  `predict`, by contrast, performs no
such validation at entry (see the counterexample). -/
theorem mapie_c6_fit_validates_at_entry (shuffler : Shuffler)
    (r : MapieRegressor) (X : List Row) (y : List ℚ)
    (h : ¬ (0 < r.alpha ∧ r.alpha < 1) ∨ ¬ (r.method ∈ valid_methods) ∨
      ¬ (r.return_pred ∈ valid_return_preds)) :
    fit shuffler r X y = Except.error r := by
  have hcp : checkParameters r = Except.error r := by
    unfold checkParameters
    rcases h with h | h | h
    · rw [if_pos h]
    · by_cases h1 : ¬ (0 < r.alpha ∧ r.alpha < 1)
      · rw [if_pos h1]
      · rw [if_neg h1, if_pos h]
    · by_cases h1 : ¬ (0 < r.alpha ∧ r.alpha < 1)
      · rw [if_pos h1]
      · rw [if_neg h1]
        by_cases h2 : ¬ (r.method ∈ valid_methods)
        · rw [if_pos h2]
        · rw [if_neg h2, if_pos h]
  unfold fit
  rw [hcp]

/-- A regressor configured with the invalid `alpha = 2`. -/
def mrC6bad : MapieRegressor :=
  { estimator := some estConst, alpha := 2, method := ("cv_plus"), n_splits := 5,
    shuffle := true, return_pred := ("single"), random_state := none }

/-- Witness for C6 (amended): a regressor with `alpha = 2` is rejected at
`fit` entry and returned unchanged. -/
theorem mapie_c6_witness :
    (¬ (0 < mrC6bad.alpha ∧ mrC6bad.alpha < 1) ∨
      ¬ (mrC6bad.method ∈ valid_methods) ∨
      ¬ (mrC6bad.return_pred ∈ valid_return_preds)) ∧
    fit shuffler0 mrC6bad [[0]] [1] = Except.error mrC6bad := by
  constructor
  · exact Or.inl (by norm_num [mrC6bad])
  · exact mapie_c6_fit_validates_at_entry shuffler0 mrC6bad [[0]] [1]
      (Or.inl (by norm_num [mrC6bad]))

/-- The configuration of the C6 counterexample: valid parameters, jackknife+
method, constant base estimator. -/
def mrC6 : MapieRegressor :=
  { estimator := some estConst, alpha := 1/2, method := ("jackknife_plus"),
    n_splits := 5, shuffle := true, return_pred := ("single"),
    random_state := none }

/-- The C6 regressor after a successful `fit` on two samples. -/
def c6fitted : MapieRegressor :=
  (fit shuffler0 mrC6 [[0], [1]] [1, 2]).toOption.getD mrC6

/-- Claim C6 counterexample: take a regressor fitted with valid parameters and
set `return_pred` to the invalid value "junk" (scikit-learn's `set_params` /
plain attribute assignment allows this at any time).  The claim says an error
is raised immediately at entry to `predict`; in fact `predict` contains no
parameter validation at all — the invalid `return_pred` is silently ignored
and intervals are returned. -/
theorem mapie_c6_counterexample :
    ¬ (("junk") ∈ valid_return_preds) ∧
    predict { c6fitted with return_pred := ("junk") } [[0]] =
      Except.ok [(0, -2, 2)] := by
  constructor
  · simp [valid_return_preds]
  · with_unfolding_all rfl

/-- Claim C10: `fit` mutates the configuration itself — a missing estimator is
permanently replaced by the default ordinary-least-squares regressor, and for
"cv"-prefixed methods with shuffling disabled the stored `random_state` is
permanently overwritten with `None`. -/
theorem mapie_c10_fit_mutates_config (shuffler : Shuffler)
    (r0 : MapieRegressor) (X : List Row) (y : List ℚ) (r : MapieRegressor)
    (hfit : fit shuffler r0 X y = Except.ok r) :
    (r0.estimator = none → r.estimator = some linearRegression) ∧
    (r0.method.startsWith ("cv") = true → r0.shuffle = false →
      r.random_state = none) := by
  obtain ⟨r1, est, hcp, hest, hlen, hpos, hbr⟩ := fit_ok shuffler r0 X y r hfit
  obtain ⟨-, -, -, -, hestcase⟩ := checkParameters_ok r0 r1 hcp
  obtain ⟨-, hmeth, -, hshuf, -, hrs, -, -, -, -⟩ := checkParameters_fields r0 r1 hcp
  have hestm : r0.estimator = none → r1.estimator = some linearRegression := by
    intro h0
    rcases hestcase with ⟨-, he⟩ | he
    · exact he
    · rw [he, h0] at hest
      exact absurd hest (by simp)
  constructor
  · intro h0
    rcases hbr with ⟨hnaive, hr⟩ | ⟨hnn, r3, splits, hsel, hr⟩
    · rw [hr]
      exact hestm h0
    · rcases selectCV_ok shuffler _ r3 y.length splits hsel with
        ⟨-, -, -, hin⟩ | ⟨-, -, -, hr3, -⟩
      · rcases hin with ⟨-, hr3, -⟩ | ⟨-, hr3, -⟩ <;>
          · rw [hr, hr3]
            simpa [fitFolds] using hestm h0
      · rw [hr, hr3]
        simpa [fitFolds] using hestm h0
  · intro hcv hnosh
    rcases hbr with ⟨hnaive, hr⟩ | ⟨hnn, r3, splits, hsel, hr⟩
    · rw [← hmeth, hnaive] at hcv
      exact absurd hcv (by with_unfolding_all decide)
    · rcases selectCV_ok shuffler _ r3 y.length splits hsel with
        ⟨-, -, -, hin⟩ | ⟨hncv, -, -, -, -⟩
      · rcases hin with ⟨hsh, -, -⟩ | ⟨-, hr3, -⟩
        · rw [show ({ r1 with single_estimator_ := some (est X y) } :
              MapieRegressor).shuffle = r1.shuffle from rfl, hshuf, hnosh] at hsh
          exact absurd hsh (by simp)
        · rw [hr, hr3]
          simp [fitFolds]
      · rw [show ({ r1 with single_estimator_ := some (est X y) } :
            MapieRegressor).method = r1.method from rfl, hmeth, hcv] at hncv
        exact absurd hncv (by simp)

/-- The C10 witness configuration: no estimator supplied, a "cv" method,
shuffling disabled, a random_state supplied at construction. -/
def mrC10 : MapieRegressor :=
  { estimator := none, alpha := 1/10, method := ("cv_plus"), n_splits := 2,
    shuffle := false, return_pred := ("single"), random_state := some 7 }

/-- The C10 witness regressor after `fit`. -/
def c10r : MapieRegressor :=
  (fit shuffler0 mrC10 [[0], [1]] [0, 1]).toOption.getD mrC10

/-- Witness for C10: after `fit`, the missing estimator has been replaced by
the default least-squares regressor and the constructed `random_state` has
been overwritten with `None`. -/
theorem mapie_c10_witness :
    mrC10.estimator = none ∧ mrC10.method.startsWith ("cv") = true ∧
    mrC10.shuffle = false ∧
    fit shuffler0 mrC10 [[0], [1]] [0, 1] = Except.ok c10r ∧
    c10r.estimator = some linearRegression ∧ c10r.random_state = none := by
  have hfit : fit shuffler0 mrC10 [[0], [1]] [0, 1] = Except.ok c10r := by
    with_unfolding_all rfl
  have hmut := mapie_c10_fit_mutates_config shuffler0 mrC10 [[0], [1]] [0, 1]
    c10r hfit
  exact ⟨rfl, by with_unfolding_all decide, rfl, hfit,
    hmut.1 rfl, hmut.2 (by with_unfolding_all decide) rfl⟩

/-- A pass of index-writes `b.set i (g i)` keeps the length. -/
theorem foldl_set_length (is : List ℕ) (a : List α) (g : ℕ → α) :
    (is.foldl (fun b i => b.set i (g i)) a).length = a.length := by
  induction is generalizing a with
  | nil => rfl
  | cons i t ih => rw [List.foldl_cons, ih, List.length_set]

/-- The out-of-fold write loop keeps the length of the accumulator. -/
theorem buildOofAux_length (X : List Row)
    (pairs : List ((List ℕ × List ℕ) × (Row → ℚ))) (acc : List ℚ) :
    (buildOofAux X pairs acc).length = acc.length := by
  induction pairs generalizing acc with
  | nil => rfl
  | cons p rest ih => rw [buildOofAux, ih, foldl_set_length]

/-- The out-of-fold prediction vector has one entry per training sample. -/
theorem buildOof_length (n : ℕ) (splits : List (List ℕ × List ℕ))
    (ests : List (Row → ℚ)) (X : List Row) :
    (buildOof n splits ests X).length = n := by
  rw [buildOof, buildOofAux_length, List.length_replicate]

/-- The fold-assignment write loop keeps the length of the accumulator. -/
theorem buildKAux_length (k : ℕ) (splits : List (List ℕ × List ℕ))
    (acc : List ℕ) : (buildKAux k splits acc).length = acc.length := by
  induction splits generalizing k acc with
  | nil => rfl
  | cons p rest ih => rw [buildKAux, ih, foldl_set_length]

/-- The fold-assignment vector has one entry per training sample. -/
theorem buildK_length (n : ℕ) (splits : List (List ℕ × List ℕ)) :
    (buildK n splits).length = n := by
  rw [buildK, buildKAux_length, List.length_replicate]

/-- `absDiff` pairs entries up to the shorter length. -/
theorem absDiff_length (y p : List ℚ) :
    (absDiff y p).length = min y.length p.length := by
  rw [absDiff, List.length_zipWith]

/-- Every residual is an absolute value, hence non-negative. -/
theorem absDiff_nonneg (y p : List ℚ) : ∀ v ∈ absDiff y p, 0 ≤ v := by
  induction y generalizing p with
  | nil => intro v hv; simp [absDiff] at hv
  | cons a t ih =>
    intro v hv
    cases p with
    | nil => simp [absDiff] at hv
    | cons b q =>
      rw [absDiff, List.zipWith_cons_cons] at hv
      rcases List.mem_cons.mp hv with h | h
      · rw [h]; exact abs_nonneg _
      · exact ih q v h

/-- The sorted copy is a permutation of the input. -/
theorem sortedAsc_perm (xs : List ℚ) : (sortedAsc xs).Perm xs :=
  List.perm_insertionSort _ _

/-- A "higher" quantile of a list of non-negative values is non-negative. -/
theorem quantileHigherVal_nonneg (xs : List ℚ) (q : ℚ)
    (h : ∀ v ∈ xs, 0 ≤ v) : 0 ≤ quantileHigherVal xs q := by
  unfold quantileHigherVal
  by_cases hi : Int.toNat (Int.ceil (q * ((xs.length : ℚ) - 1))) <
      (sortedAsc xs).length
  · rw [List.getD_eq_getElem _ _ hi]
    exact h _ ((sortedAsc_perm xs).mem_iff.mp (List.getElem_mem hi))
  · rw [List.getD_eq_default _ _ (not_lt.mp hi)]

/-- Consolidated facts about any successfully fitted regressor: configuration
fields survive, parameters were valid, data was consistent, and the fitted
attributes `single_estimator_` and `residuals_` are set, with one non-negative
residual per training sample. -/
theorem fit_ok_fields (shuffler : Shuffler) (r0 : MapieRegressor)
    (X : List Row) (y : List ℚ) (r : MapieRegressor)
    (h : fit shuffler r0 X y = Except.ok r) :
    r.alpha = r0.alpha ∧ r.method = r0.method ∧ r.return_pred = r0.return_pred ∧
    (0 < r0.alpha ∧ r0.alpha < 1) ∧ X.length = y.length ∧ 0 < y.length ∧
    ∃ s res, r.single_estimator_ = some s ∧ r.residuals_ = some res ∧
      res.length = y.length ∧ ∀ v ∈ res, 0 ≤ v := by
  obtain ⟨r1, est, hcp, hest, hlen, hpos, hbr⟩ := fit_ok shuffler r0 X y r h
  obtain ⟨ha, hm, -, -, hrp, -, -, -, -, -⟩ := checkParameters_fields r0 r1 hcp
  obtain ⟨⟨ha0, ha1⟩, -, -, -, -⟩ := checkParameters_ok r0 r1 hcp
  rcases hbr with ⟨hnaive, hr⟩ | ⟨hnn, r3, splits, hsel, hr⟩
  · subst hr
    refine ⟨ha, hm, hrp, ⟨ha0, ha1⟩, hlen, hpos, est X y, _, rfl, rfl, ?_,
      absDiff_nonneg _ _⟩
    rw [absDiff_length, List.length_map, hlen, Nat.min_self]
  · have h3 : r3.alpha = r1.alpha ∧ r3.method = r1.method ∧
        r3.return_pred = r1.return_pred ∧
        r3.single_estimator_ = some (est X y) := by
      rcases selectCV_ok shuffler _ r3 y.length splits hsel with
        ⟨-, -, -, ⟨-, hr3, -⟩ | ⟨-, hr3, -⟩⟩ | ⟨-, -, -, hr3, -⟩ <;>
        · subst hr3; exact ⟨rfl, rfl, rfl, rfl⟩
    subst hr
    refine ⟨h3.1.trans ha, (h3.2.1.trans hm), h3.2.2.1.trans hrp, ⟨ha0, ha1⟩,
      hlen, hpos, est X y, _, h3.2.2.2, rfl, ?_, absDiff_nonneg _ _⟩
    rw [absDiff_length, buildOof_length, Nat.min_self]

/-- Evaluation of `predict` on the constant-width branch
(`method ∈ {naive, jackknife, cv}`). -/
theorem predict_const_branch (r : MapieRegressor) (Xtest : List Row)
    (s : Row → ℚ) (res : List ℚ) (hs : r.single_estimator_ = some s)
    (hres : r.residuals_ = some res)
    (hm : r.method = ("naive") ∨ r.method = ("jackknife") ∨ r.method = ("cv"))
    (hlen : ¬ res.length = 0) (h0 : 0 ≤ 1 - r.alpha) (h1 : 1 - r.alpha ≤ 1) :
    predict r Xtest =
      Except.ok ((Xtest.map s).map (fun c =>
        (c, c - quantileHigherVal res (1 - r.alpha),
         c + quantileHigherVal res (1 - r.alpha)))) := by
  have hq : npQuantileHigher res (1 - r.alpha) =
      some (quantileHigherVal res (1 - r.alpha)) := by
    unfold npQuantileHigher
    rw [if_neg]
    push_neg
    exact ⟨hlen, not_lt.mp (by linarith), not_lt.mp (by linarith)⟩
  unfold predict
  rw [hs]
  dsimp only
  rw [if_pos hm, hres]
  dsimp only [Option.getD]
  rw [hq]

/-- `np.quantile(..., interpolation="higher")` succeeds on a nonempty list and
an in-range probability. -/
theorem npQuantileHigher_eval (xs : List ℚ) (q : ℚ) (hlen : ¬ xs.length = 0)
    (h0 : 0 ≤ q) (h1 : q ≤ 1) :
    npQuantileHigher xs q = some (quantileHigherVal xs q) := by
  unfold npQuantileHigher
  rw [if_neg]
  push_neg
  exact ⟨hlen, h0, h1⟩

/-- `np.quantile(..., interpolation="lower")` succeeds on a nonempty list and
an in-range probability. -/
theorem npQuantileLower_eval (xs : List ℚ) (q : ℚ) (hlen : ¬ xs.length = 0)
    (h0 : 0 ≤ q) (h1 : q ≤ 1) :
    npQuantileLower xs q = some (quantileLowerVal xs q) := by
  unfold npQuantileLower
  rw [if_neg]
  push_neg
  exact ⟨hlen, h0, h1⟩

/-- Claim C5: for the naive, jackknife and cv methods, `predict` computes one
scalar `q` — the quantile of the stored residuals at probability `1 - alpha`
under the nearest-higher-ranked-value rule — and returns
`(center, center - q, center + q)` for every test row, so the band half-width
is the same constant for all test rows. -/
theorem mapie_c5_constant_band (shuffler : Shuffler) (r0 : MapieRegressor)
    (X : List Row) (y : List ℚ) (r : MapieRegressor) (Xtest : List Row)
    (hfit : fit shuffler r0 X y = Except.ok r)
    (hm : r.method = ("naive") ∨ r.method = ("jackknife") ∨ r.method = ("cv")) :
    ∃ s q, r.single_estimator_ = some s ∧
      npQuantileHigher (r.residuals_.getD []) (1 - r.alpha) = some q ∧
      predict r Xtest =
        Except.ok (Xtest.map (fun x => (s x, s x - q, s x + q))) := by
  obtain ⟨ha, -, -, ⟨ha0, ha1⟩, -, hpos, s, res, hs, hres, hreslen, -⟩ :=
    fit_ok_fields shuffler r0 X y r hfit
  have hlen : ¬ res.length = 0 := by rw [hreslen]; omega
  have h0 : 0 ≤ 1 - r.alpha := by rw [ha]; linarith
  have h1 : 1 - r.alpha ≤ 1 := by rw [ha]; linarith
  refine ⟨s, quantileHigherVal res (1 - r.alpha), hs, ?_, ?_⟩
  · rw [hres]
    exact npQuantileHigher_eval res (1 - r.alpha) hlen h0 h1
  · rw [predict_const_branch r Xtest s res hs hres hm hlen h0 h1, List.map_map]
    rfl

/-- The C5 witness configuration: `naive` with a constant base estimator. -/
def mrC5 : MapieRegressor :=
  { estimator := some estConst, alpha := 1/10, method := ("naive"), n_splits := 5,
    shuffle := true, return_pred := ("single"), random_state := none }

/-- The C5 witness regressor after `fit`. -/
def c5r : MapieRegressor :=
  (fit shuffler0 mrC5 [[0], [1], [2]] [1, 2, 3]).toOption.getD mrC5

/-- Witness for C5 at a concrete fitted state. -/
theorem mapie_c5_witness :
    fit shuffler0 mrC5 [[0], [1], [2]] [1, 2, 3] = Except.ok c5r ∧
    (c5r.method = ("naive") ∨ c5r.method = ("jackknife") ∨
      c5r.method = ("cv")) ∧
    ∃ s q, c5r.single_estimator_ = some s ∧
      npQuantileHigher (c5r.residuals_.getD []) (1 - c5r.alpha) = some q ∧
      predict c5r [[0], [7]] =
        Except.ok ([[0], [7]].map (fun x => (s x, s x - q, s x + q))) := by
  have hfit : fit shuffler0 mrC5 [[0], [1], [2]] [1, 2, 3] = Except.ok c5r := by
    with_unfolding_all rfl
  exact ⟨hfit, Or.inl (by with_unfolding_all rfl),
    mapie_c5_constant_band shuffler0 mrC5 [[0], [1], [2]] [1, 2, 3] c5r
      [[0], [7]] hfit (Or.inl (by with_unfolding_all rfl))⟩

/-- The configuration of the C3 counterexample: jackknife+ with a base
estimator whose fold models (each trained on a single sample) predict 100
while the full-data model predicts 0; all residuals are 0. -/
def mrC3 : MapieRegressor :=
  { estimator := some estCheat, alpha := 1/2, method := ("jackknife_plus"),
    n_splits := 5, shuffle := true, return_pred := ("single"),
    random_state := none }

/-- Claim C3 counterexample: for `jackknife_plus` with `return_pred` "single"
the predicted row is `(center, lower, upper) = (0, 100, 100)`: the lower bound
exceeds the center, so `lower ≤ center ≤ upper` fails.  (The bounds come from
the fold models, the center from the full-data model; nothing ties them.) -/
theorem mapie_c3_counterexample :
    fitPredict shuffler0 mrC3 [[0], [1]] [100, 100] [[0]] =
      Except.ok [(0, 100, 100)] ∧ ¬ ((100 : ℚ) ≤ 0) :=
  ⟨by with_unfolding_all rfl, by norm_num⟩

/-- Claim C3 (amended): for the naive, jackknife and cv methods every
predicted row satisfies `lower ≤ center ≤ upper` (the bounds are
`center ∓ q` with `q` a quantile of the non-negative residuals); for the plus
and minmax methods the chain can fail, because the bounds derive from the fold
models while the center derives from the single model or the fold median (see
the counterexample). -/
theorem mapie_c3_bounds_ordered (shuffler : Shuffler) (r0 : MapieRegressor)
    (X : List Row) (y : List ℚ) (r : MapieRegressor) (Xtest : List Row)
    (hfit : fit shuffler r0 X y = Except.ok r)
    (hm : r.method = ("naive") ∨ r.method = ("jackknife") ∨ r.method = ("cv")) :
    ∃ rows, predict r Xtest = Except.ok rows ∧
      ∀ p ∈ rows, p.2.1 ≤ p.1 ∧ p.1 ≤ p.2.2 := by
  obtain ⟨ha, -, -, ⟨ha0, ha1⟩, -, hpos, s, res, hs, hres, hreslen, hnn⟩ :=
    fit_ok_fields shuffler r0 X y r hfit
  have hlen : ¬ res.length = 0 := by rw [hreslen]; omega
  have h0 : 0 ≤ 1 - r.alpha := by rw [ha]; linarith
  have h1 : 1 - r.alpha ≤ 1 := by rw [ha]; linarith
  have hq0 : 0 ≤ quantileHigherVal res (1 - r.alpha) :=
    quantileHigherVal_nonneg res (1 - r.alpha) hnn
  refine ⟨_, predict_const_branch r Xtest s res hs hres hm hlen h0 h1, ?_⟩
  intro p hp
  rw [List.mem_map] at hp
  obtain ⟨c, -, hc⟩ := hp
  rw [← hc]
  exact ⟨by dsimp only; linarith, by dsimp only; linarith⟩

/-- Witness for C3 (amended) at a concrete fitted state. -/
theorem mapie_c3_witness :
    fit shuffler0 mrC5 [[0], [1], [2]] [1, 2, 3] = Except.ok c5r ∧
    (c5r.method = ("naive") ∨ c5r.method = ("jackknife") ∨
      c5r.method = ("cv")) ∧
    ∃ rows, predict c5r [[4]] = Except.ok rows ∧
      ∀ p ∈ rows, p.2.1 ≤ p.1 ∧ p.1 ≤ p.2.2 := by
  have hfit : fit shuffler0 mrC5 [[0], [1], [2]] [1, 2, 3] = Except.ok c5r := by
    with_unfolding_all rfl
  exact ⟨hfit, Or.inl (by with_unfolding_all rfl),
    mapie_c3_bounds_ordered shuffler0 mrC5 [[0], [1], [2]] [1, 2, 3] c5r [[4]]
      hfit (Or.inl (by with_unfolding_all rfl))⟩

/-- `_select_cv` changes nothing except possibly `random_state`. -/
theorem selectCV_ok_fields (shuffler : Shuffler) (rb r3 : MapieRegressor)
    (n : ℕ) (splits : List (List ℕ × List ℕ))
    (h : selectCV shuffler rb n = Except.ok (r3, splits)) :
    r3.estimator = rb.estimator ∧ r3.alpha = rb.alpha ∧ r3.method = rb.method ∧
    r3.n_splits = rb.n_splits ∧ r3.shuffle = rb.shuffle ∧
    r3.return_pred = rb.return_pred ∧
    r3.single_estimator_ = rb.single_estimator_ ∧
    r3.estimators_ = rb.estimators_ ∧ r3.residuals_ = rb.residuals_ ∧
    r3.k_ = rb.k_ := by
  rcases selectCV_ok shuffler rb r3 n splits h with
    ⟨-, -, -, ⟨-, hr3, -⟩ | ⟨-, hr3, -⟩⟩ | ⟨-, -, -, hr3, -⟩ <;>
    · subst hr3; exact ⟨rfl, rfl, rfl, rfl, rfl, rfl, rfl, rfl, rfl, rfl⟩

/-- Entrywise description of the residual vector. -/
theorem absDiff_getD (y p : List ℚ) (i : ℕ) (hy : i < y.length)
    (hp : i < p.length) :
    (absDiff y p).getD i 0 = |y.getD i 0 - p.getD i 0| := by
  have hlen : i < (absDiff y p).length := by
    rw [absDiff_length]
    exact lt_min hy hp
  rw [List.getD_eq_getElem _ _ hlen, List.getD_eq_getElem _ _ hy,
    List.getD_eq_getElem _ _ hp]
  simp [absDiff, List.getElem_zipWith]

/-- Claim C8: after `fit` on `n` training rows (any method), the stored
residual vector has length exactly `n`, every entry equals the absolute
difference `|y[i] - y_pred[i]|` — where `y_pred` is the prediction vector fit
built: in-sample single-model predictions for `naive`, the out-of-fold vector
otherwise — with no further transformation, and every entry is
non-negative. -/
theorem mapie_c8_residuals (shuffler : Shuffler) (r0 : MapieRegressor)
    (X : List Row) (y : List ℚ) (r : MapieRegressor)
    (hfit : fit shuffler r0 X y = Except.ok r) :
    ∃ res ypred est, r.estimator = some est ∧ r.residuals_ = some res ∧
      res = absDiff y ypred ∧ res.length = y.length ∧
      (∀ v ∈ res, 0 ≤ v) ∧
      (∀ i, i < y.length → res.getD i 0 = |y.getD i 0 - ypred.getD i 0|) ∧
      ((r.method = ("naive") ∧ ypred = X.map (est X y)) ∨
        (¬ r.method = ("naive") ∧ ∃ splits,
          ypred = buildOof y.length splits (trainedEstimators est X y splits) X)) := by
  obtain ⟨r1, est, hcp, hest, hlen, hpos, hbr⟩ := fit_ok shuffler r0 X y r hfit
  rcases hbr with ⟨hnaive, hr⟩ | ⟨hnn, r3, splits, hsel, hr⟩
  · subst hr
    have hyl : (X.map (est X y)).length = y.length := by
      rw [List.length_map, hlen]
    refine ⟨_, X.map (est X y), est, hest, rfl, rfl, ?_, absDiff_nonneg _ _,
      ?_, Or.inl ⟨hnaive, rfl⟩⟩
    · rw [absDiff_length, hyl, Nat.min_self]
    · intro i hi
      exact absDiff_getD y _ i hi (by rw [hyl]; exact hi)
  · obtain ⟨hestf, -, hmf, -⟩ := selectCV_ok_fields shuffler _ r3 y.length splits hsel
    subst hr
    have hyl : (buildOof y.length splits (trainedEstimators est X y splits) X).length
        = y.length := buildOof_length _ _ _ _
    refine ⟨_, _, est, ?_, rfl, rfl, ?_, absDiff_nonneg _ _, ?_,
      Or.inr ⟨?_, splits, rfl⟩⟩
    · show r3.estimator = some est
      rw [hestf]; exact hest
    · rw [absDiff_length, hyl, Nat.min_self]
    · intro i hi
      exact absDiff_getD y _ i hi (by rw [hyl]; exact hi)
    · show ¬ r3.method = ("naive")
      rw [hmf]; exact hnn

/-- Witness for C8 at a concrete fitted state (the jackknife+ run of C6). -/
theorem mapie_c8_witness :
    fit shuffler0 mrC6 [[0], [1]] [1, 2] = Except.ok c6fitted ∧
    ∃ res ypred est, c6fitted.estimator = some est ∧
      c6fitted.residuals_ = some res ∧ res = absDiff [1, 2] ypred ∧
      res.length = ([1, 2] : List ℚ).length ∧ (∀ v ∈ res, 0 ≤ v) ∧
      (∀ i, i < ([1, 2] : List ℚ).length →
        res.getD i 0 = |([1, 2] : List ℚ).getD i 0 - ypred.getD i 0|) ∧
      ((c6fitted.method = ("naive") ∧ ypred = [[0], [1]].map (est [[0], [1]] [1, 2])) ∨
        (¬ c6fitted.method = ("naive") ∧ ∃ splits,
          ypred = buildOof ([1, 2] : List ℚ).length splits
            (trainedEstimators est [[0], [1]] [1, 2] splits) [[0], [1]])) := by
  have hfit : fit shuffler0 mrC6 [[0], [1]] [1, 2] = Except.ok c6fitted := by
    with_unfolding_all rfl
  exact ⟨hfit, mapie_c8_residuals shuffler0 mrC6 [[0], [1]] [1, 2] c6fitted hfit⟩

/-- `takeChunks` produces one chunk per requested size. -/
theorem takeChunks_length (ss : List ℕ) (xs : List ℕ) :
    (takeChunks ss xs).length = ss.length := by
  induction ss generalizing xs with
  | nil => rfl
  | cons s t ih => rw [takeChunks, List.length_cons, ih, List.length_cons]

/-- There are `k` fold sizes. -/
theorem foldSizes_length (n k : ℕ) : (foldSizes n k).length = k := by
  rw [foldSizes, List.length_map, List.length_range]

/-- A K-fold split produces exactly `k` folds. -/
theorem kfoldSplits_length (n k : ℕ) (order : List ℕ) :
    (kfoldSplits n k order).length = k := by
  rw [kfoldSplits, List.length_map, takeChunks_length, foldSizes_length]

/-- Leave-one-out produces one fold per sample. -/
theorem looSplits_length (n : ℕ) : (looSplits n).length = n := by
  rw [looSplits, List.length_map, List.length_range]

/-- One fold model is trained per split. -/
theorem trainedEstimators_length (est : BaseEstimator) (X : List Row)
    (y : List ℚ) (splits : List (List ℕ × List ℕ)) :
    (trainedEstimators est X y splits).length = splits.length := by
  rw [trainedEstimators, List.length_map]

/-- An option-valued map over a list succeeds when it succeeds pointwise. -/
theorem mapM_eq_map_option (f : α → Option β) (g : α → β) (l : List α)
    (h : ∀ a ∈ l, f a = some (g a)) : l.mapM f = some (l.map g) := by
  induction l with
  | nil => rfl
  | cons a t ih =>
    rw [List.mapM_cons, h a (List.mem_cons_self a t),
      ih (fun b hb => h b (List.mem_cons_of_mem a hb))]
    rfl

/-- Row-wise "lower" quantiles succeed on nonempty rows. -/
theorem mapM_quantileLower (rows : List (List ℚ)) (q : ℚ) (h0 : 0 ≤ q)
    (h1 : q ≤ 1) (h : ∀ row ∈ rows, ¬ row.length = 0) :
    rows.mapM (fun row => npQuantileLower row q) =
      some (rows.map (fun row => quantileLowerVal row q)) :=
  mapM_eq_map_option _ _ _
    (fun row hrow => npQuantileLower_eval row q (h row hrow) h0 h1)

/-- Row-wise "higher" quantiles succeed on nonempty rows. -/
theorem mapM_quantileHigher (rows : List (List ℚ)) (q : ℚ) (h0 : 0 ≤ q)
    (h1 : q ≤ 1) (h : ∀ row ∈ rows, ¬ row.length = 0) :
    rows.mapM (fun row => npQuantileHigher row q) =
      some (rows.map (fun row => quantileHigherVal row q)) :=
  mapM_eq_map_option _ _ _
    (fun row hrow => npQuantileHigher_eval row q (h row hrow) h0 h1)

/-- Rows built by pairing (`zipWith`) a nonempty row with the nonempty
residual vector are nonempty. -/
theorem zipWith_rows_ne_nil (f : ℚ → ℚ → ℚ) (rows : List (List ℚ))
    (res : List ℚ) (hrows : ∀ row ∈ rows, ¬ row.length = 0)
    (hres : ¬ res.length = 0) :
    ∀ row ∈ rows.map (fun row => List.zipWith f row res), ¬ row.length = 0 := by
  intro row hrow
  rw [List.mem_map] at hrow
  obtain ⟨prow, hp, hrw⟩ := hrow
  rw [← hrw, List.length_zipWith]
  have h1 := hrows prow hp
  rcases Nat.eq_zero_or_pos prow.length with hz | hq1
  · exact absurd hz h1
  · rcases Nat.eq_zero_or_pos res.length with hz | hq2
    · exact absurd hz hres
    · have : 0 < min prow.length res.length := lt_min hq1 hq2
      omega

/-- Rows built by mapping over the nonempty residual vector are nonempty. -/
theorem map_res_rows_ne_nil (f : List ℚ → ℚ → ℚ) (rows : List (List ℚ))
    (res : List ℚ) (hres : ¬ res.length = 0) :
    ∀ row ∈ rows.map (fun row => res.map (fun rr => f row rr)),
      ¬ row.length = 0 := by
  intro row hrow
  rw [List.mem_map] at hrow
  obtain ⟨prow, hp, hrw⟩ := hrow
  rw [← hrw, List.length_map]
  exact hres

/-- `predict` dispatches to the ensemble branch for non-constant methods. -/
theorem predict_to_ensemble (r : MapieRegressor) (Xtest : List Row)
    (s : Row → ℚ) (ests : List (Row → ℚ)) (hs : r.single_estimator_ = some s)
    (hests : r.estimators_ = some ests)
    (hnot3 : ¬ (r.method = ("naive") ∨ r.method = ("jackknife") ∨
      r.method = ("cv"))) :
    predict r Xtest = predictEnsemble r Xtest s ests := by
  unfold predict
  rw [hs]
  dsimp only
  rw [if_neg hnot3, hests]

/-- Evaluation of the ensemble branch for "*plus" methods: lower matrix
`P[i,j] - res[j]`, upper matrix `P[i,j] + res[j]`, with `P` the (re-indexed
for "cv_plus") per-fold prediction matrix, then per-row nearest-lower /
nearest-higher quantiles at `alpha` / `1 - alpha`. -/
theorem predictEnsemble_plus_eval (r : MapieRegressor) (Xtest : List Row)
    (s : Row → ℚ) (ests : List (Row → ℚ)) (res : List ℚ)
    (hres : r.residuals_ = some res)
    (hplus : r.method.endsWith ("plus") = true)
    (h0 : 0 < r.alpha) (h1 : r.alpha < 1)
    (hrows : ∀ row ∈ (if r.method = ("cv_plus")
        then (Xtest.map (fun x => ests.map (fun e => e x))).map
          (reindexRow (r.k_.getD []))
        else Xtest.map (fun x => ests.map (fun e => e x))),
      ¬ row.length = 0)
    (hresne : ¬ res.length = 0) :
    predictEnsemble r Xtest s ests = Except.ok (zip3
      (if r.return_pred = ("median")
        then (Xtest.map (fun x => ests.map (fun e => e x))).map npMedian
        else Xtest.map s)
      (((if r.method = ("cv_plus")
          then (Xtest.map (fun x => ests.map (fun e => e x))).map
            (reindexRow (r.k_.getD []))
          else Xtest.map (fun x => ests.map (fun e => e x))).map
            (fun row => List.zipWith (fun p rr => p - rr) row res)).map
        (fun row => quantileLowerVal row r.alpha))
      (((if r.method = ("cv_plus")
          then (Xtest.map (fun x => ests.map (fun e => e x))).map
            (reindexRow (r.k_.getD []))
          else Xtest.map (fun x => ests.map (fun e => e x))).map
            (fun row => List.zipWith (fun p rr => p + rr) row res)).map
        (fun row => quantileHigherVal row (1 - r.alpha)))) := by
  unfold predictEnsemble
  rw [if_pos hplus, hres]
  simp only [Option.getD_some]
  rw [mapM_quantileLower _ r.alpha h0.le h1.le
      (zipWith_rows_ne_nil (fun p rr => p - rr) _ res hrows hresne),
    mapM_quantileHigher _ (1 - r.alpha) (by linarith) (by linarith)
      (zipWith_rows_ne_nil (fun p rr => p + rr) _ res hrows hresne)]

/-- Evaluation of the ensemble branch for "*minmax" methods: lower matrix
`min(P[i,:]) - res[j]`, upper matrix `max(P[i,:]) + res[j]`, then per-row
nearest-lower / nearest-higher quantiles at `alpha` / `1 - alpha`. -/
theorem predictEnsemble_minmax_eval (r : MapieRegressor) (Xtest : List Row)
    (s : Row → ℚ) (ests : List (Row → ℚ)) (res : List ℚ)
    (hres : r.residuals_ = some res)
    (hnplus : r.method.endsWith ("plus") = false)
    (hminmax : r.method.endsWith ("minmax") = true)
    (h0 : 0 < r.alpha) (h1 : r.alpha < 1) (hresne : ¬ res.length = 0) :
    predictEnsemble r Xtest s ests = Except.ok (zip3
      (if r.return_pred = ("median")
        then (Xtest.map (fun x => ests.map (fun e => e x))).map npMedian
        else Xtest.map s)
      (((if r.method = ("cv_plus")
          then (Xtest.map (fun x => ests.map (fun e => e x))).map
            (reindexRow (r.k_.getD []))
          else Xtest.map (fun x => ests.map (fun e => e x))).map
            (fun row => res.map (fun rr => listMin row - rr))).map
        (fun row => quantileLowerVal row r.alpha))
      (((if r.method = ("cv_plus")
          then (Xtest.map (fun x => ests.map (fun e => e x))).map
            (reindexRow (r.k_.getD []))
          else Xtest.map (fun x => ests.map (fun e => e x))).map
            (fun row => res.map (fun rr => listMax row + rr))).map
        (fun row => quantileHigherVal row (1 - r.alpha)))) := by
  unfold predictEnsemble
  rw [if_neg (by rw [hnplus]; exact Bool.false_ne_true), if_pos hminmax, hres]
  simp only [Option.getD_some]
  rw [mapM_quantileLower _ r.alpha h0.le h1.le
      (map_res_rows_ne_nil (fun row rr => listMin row - rr) _ res hresne),
    mapM_quantileHigher _ (1 - r.alpha) (by linarith) (by linarith)
      (map_res_rows_ne_nil (fun row rr => listMax row + rr) _ res hresne)]

/-- Claim C4: for the plus and minmax methods, `predict` builds
`lowerMat[i,j] = P[i,j] - residual[j]` and `upperMat[i,j] = P[i,j] + residual[j]`
(plus variants), or `lowerMat[i,j] = min(P[i,:]) - residual[j]` and
`upperMat[i,j] = max(P[i,:]) + residual[j]` (minmax variants), with `P` the
per-fold prediction matrix re-indexed by `k_` exactly for "cv_plus", and then
takes per test row the lower bound as the quantile of `lowerMat[i,:]` at
probability `alpha` under the nearest-lower-ranked-value rule and the upper
bound as the quantile of `upperMat[i,:]` at probability `1 - alpha` under the
nearest-higher-ranked-value rule. -/
theorem mapie_c4_plus_minmax_bounds (shuffler : Shuffler) (r0 : MapieRegressor)
    (X : List Row) (y : List ℚ) (r : MapieRegressor) (Xtest : List Row)
    (hfit : fit shuffler r0 X y = Except.ok r)
    (hm : r.method = ("jackknife_plus") ∨ r.method = ("cv_plus") ∨
      r.method = ("jackknife_minmax") ∨ r.method = ("cv_minmax")) :
    ∃ s ests res,
      r.single_estimator_ = some s ∧ r.estimators_ = some ests ∧
      r.residuals_ = some res ∧
      (r.method.endsWith ("plus") = true →
        predict r Xtest = Except.ok (zip3
          (if r.return_pred = ("median")
            then (Xtest.map (fun x => ests.map (fun e => e x))).map npMedian
            else Xtest.map s)
          (((if r.method = ("cv_plus")
              then (Xtest.map (fun x => ests.map (fun e => e x))).map
                (reindexRow (r.k_.getD []))
              else Xtest.map (fun x => ests.map (fun e => e x))).map
                (fun row => List.zipWith (fun p rr => p - rr) row res)).map
            (fun row => quantileLowerVal row r.alpha))
          (((if r.method = ("cv_plus")
              then (Xtest.map (fun x => ests.map (fun e => e x))).map
                (reindexRow (r.k_.getD []))
              else Xtest.map (fun x => ests.map (fun e => e x))).map
                (fun row => List.zipWith (fun p rr => p + rr) row res)).map
            (fun row => quantileHigherVal row (1 - r.alpha))))) ∧
      (r.method.endsWith ("minmax") = true →
        predict r Xtest = Except.ok (zip3
          (if r.return_pred = ("median")
            then (Xtest.map (fun x => ests.map (fun e => e x))).map npMedian
            else Xtest.map s)
          (((if r.method = ("cv_plus")
              then (Xtest.map (fun x => ests.map (fun e => e x))).map
                (reindexRow (r.k_.getD []))
              else Xtest.map (fun x => ests.map (fun e => e x))).map
                (fun row => res.map (fun rr => listMin row - rr))).map
            (fun row => quantileLowerVal row r.alpha))
          (((if r.method = ("cv_plus")
              then (Xtest.map (fun x => ests.map (fun e => e x))).map
                (reindexRow (r.k_.getD []))
              else Xtest.map (fun x => ests.map (fun e => e x))).map
                (fun row => res.map (fun rr => listMax row + rr))).map
            (fun row => quantileHigherVal row (1 - r.alpha))))) := by
  obtain ⟨r1, est, hcp, hest, hlen, hpos, hbr⟩ := fit_ok shuffler r0 X y r hfit
  obtain ⟨⟨ha0, ha1⟩, -, -, -, -⟩ := checkParameters_ok r0 r1 hcp
  obtain ⟨ha, -, -, -, -, -, -, -, -, -⟩ := checkParameters_fields r0 r1 hcp
  rcases hbr with ⟨hnaive, hr⟩ | ⟨hnn, r3, splits, hsel, hr⟩
  · exfalso
    have hmeth : r.method = ("naive") := by rw [hr]; exact hnaive
    rcases hm with h | h | h | h <;>
      · rw [hmeth] at h
        exact absurd h (by with_unfolding_all decide)
  · obtain ⟨hestf, haf, hmf, -, -, -, hsef, -, -, -⟩ :=
      selectCV_ok_fields shuffler _ r3 y.length splits hsel
    have hs : r.single_estimator_ = some (est X y) := by
      rw [hr]
      show r3.single_estimator_ = _
      rw [hsef]
    have hests : r.estimators_ = some (trainedEstimators est X y splits) := by
      rw [hr]; rfl
    have hres : r.residuals_ = some
        (absDiff y (buildOof y.length splits (trainedEstimators est X y splits) X)) := by
      rw [hr]; rfl
    have hk : r.k_ = some (buildK y.length splits) := by
      rw [hr]; rfl
    have halpha : r.alpha = r0.alpha := by
      rw [hr]
      show r3.alpha = r0.alpha
      rw [haf]
      exact ha
    have h0 : 0 < r.alpha := by rw [halpha]; exact ha0
    have h1 : r.alpha < 1 := by rw [halpha]; exact ha1
    have hresne : ¬ (absDiff y
        (buildOof y.length splits (trainedEstimators est X y splits) X)).length = 0 := by
      rw [absDiff_length, buildOof_length, Nat.min_self]
      omega
    have hsplen : 0 < splits.length := by
      rcases selectCV_ok shuffler _ r3 y.length splits hsel with
        ⟨-, hns2, -, ⟨-, -, hsp⟩ | ⟨-, -, hsp⟩⟩ | ⟨-, -, h2n, -, hsp⟩
      · rw [hsp, kfoldSplits_length]; omega
      · rw [hsp, kfoldSplits_length]; omega
      · rw [hsp, looSplits_length]; omega
    have hnot3 : ¬ (r.method = ("naive") ∨ r.method = ("jackknife") ∨
        r.method = ("cv")) := by
      rcases hm with h | h | h | h <;>
        · rw [h]
          with_unfolding_all decide
    have hrowsP : ∀ row ∈ (if r.method = ("cv_plus")
        then (Xtest.map (fun x =>
            (trainedEstimators est X y splits).map (fun e => e x))).map
          (reindexRow (r.k_.getD []))
        else Xtest.map (fun x =>
            (trainedEstimators est X y splits).map (fun e => e x))),
        ¬ row.length = 0 := by
      intro row hrow
      by_cases hcvp : r.method = ("cv_plus")
      · rw [if_pos hcvp, List.mem_map] at hrow
        obtain ⟨prow, -, hrw⟩ := hrow
        rw [← hrw]
        show ¬ (reindexRow (r.k_.getD []) prow).length = 0
        rw [reindexRow, List.length_map, hk, Option.getD_some, buildK_length]
        omega
      · rw [if_neg hcvp, List.mem_map] at hrow
        obtain ⟨x, -, hrw⟩ := hrow
        rw [← hrw, List.length_map, trainedEstimators_length]
        omega
    refine ⟨est X y, trainedEstimators est X y splits, _, hs, hests, hres,
      ?_, ?_⟩
    · intro hplus
      rw [predict_to_ensemble r Xtest _ _ hs hests hnot3,
        predictEnsemble_plus_eval r Xtest _ _ _ hres hplus h0 h1 hrowsP hresne]
    · intro hminmax
      have hnplus : r.method.endsWith ("plus") = false := by
        rcases hm with h | h | h | h
        · rw [h] at hminmax
          exact absurd hminmax (by with_unfolding_all decide)
        · rw [h] at hminmax
          exact absurd hminmax (by with_unfolding_all decide)
        · rw [h]
          with_unfolding_all decide
        · rw [h]
          with_unfolding_all decide
      rw [predict_to_ensemble r Xtest _ _ hs hests hnot3,
        predictEnsemble_minmax_eval r Xtest _ _ _ hres hnplus hminmax h0 h1
          hresne]


/-- The C4 witness configuration: `cv_minmax` with `return_pred` "median". -/
def mrC4 : MapieRegressor :=
  { estimator := some estConst, alpha := 1/4, method := ("cv_minmax"),
    n_splits := 2, shuffle := false, return_pred := ("median"),
    random_state := none }

/-- The C4 witness regressor after `fit`. -/
def c4r : MapieRegressor :=
  (fit shuffler0 mrC4 [[0], [1], [2]] [1, 2, 3]).toOption.getD mrC4

/-- Witness for C4 at a concrete fitted state. -/
theorem mapie_c4_witness :
    fit shuffler0 mrC4 [[0], [1], [2]] [1, 2, 3] = Except.ok c4r ∧
    (c4r.method = ("jackknife_plus") ∨ c4r.method = ("cv_plus") ∨
      c4r.method = ("jackknife_minmax") ∨ c4r.method = ("cv_minmax")) ∧
    ∃ s ests res,
      c4r.single_estimator_ = some s ∧ c4r.estimators_ = some ests ∧
      c4r.residuals_ = some res ∧
      (c4r.method.endsWith ("plus") = true →
        predict c4r [[0], [5]] = Except.ok (zip3
          (if c4r.return_pred = ("median")
            then ([[0], [5]].map (fun x => ests.map (fun e => e x))).map npMedian
            else [[0], [5]].map s)
          (((if c4r.method = ("cv_plus")
              then ([[0], [5]].map (fun x => ests.map (fun e => e x))).map
                (reindexRow (c4r.k_.getD []))
              else [[0], [5]].map (fun x => ests.map (fun e => e x))).map
                (fun row => List.zipWith (fun p rr => p - rr) row res)).map
            (fun row => quantileLowerVal row c4r.alpha))
          (((if c4r.method = ("cv_plus")
              then ([[0], [5]].map (fun x => ests.map (fun e => e x))).map
                (reindexRow (c4r.k_.getD []))
              else [[0], [5]].map (fun x => ests.map (fun e => e x))).map
                (fun row => List.zipWith (fun p rr => p + rr) row res)).map
            (fun row => quantileHigherVal row (1 - c4r.alpha))))) ∧
      (c4r.method.endsWith ("minmax") = true →
        predict c4r [[0], [5]] = Except.ok (zip3
          (if c4r.return_pred = ("median")
            then ([[0], [5]].map (fun x => ests.map (fun e => e x))).map npMedian
            else [[0], [5]].map s)
          (((if c4r.method = ("cv_plus")
              then ([[0], [5]].map (fun x => ests.map (fun e => e x))).map
                (reindexRow (c4r.k_.getD []))
              else [[0], [5]].map (fun x => ests.map (fun e => e x))).map
                (fun row => res.map (fun rr => listMin row - rr))).map
            (fun row => quantileLowerVal row c4r.alpha))
          (((if c4r.method = ("cv_plus")
              then ([[0], [5]].map (fun x => ests.map (fun e => e x))).map
                (reindexRow (c4r.k_.getD []))
              else [[0], [5]].map (fun x => ests.map (fun e => e x))).map
                (fun row => res.map (fun rr => listMax row + rr))).map
            (fun row => quantileHigherVal row (1 - c4r.alpha))))) := by
  have hfit : fit shuffler0 mrC4 [[0], [1], [2]] [1, 2, 3] = Except.ok c4r := by
    with_unfolding_all rfl
  exact ⟨hfit, Or.inr (Or.inr (Or.inr (by with_unfolding_all rfl))),
    mapie_c4_plus_minmax_bounds shuffler0 mrC4 [[0], [1], [2]] [1, 2, 3] c4r
      [[0], [5]] hfit (Or.inr (Or.inr (Or.inr (by with_unfolding_all rfl))))⟩

/-- `predict` never reads `random_state`. -/
theorem predict_rs (r : MapieRegressor) (s : Option ℤ) (Xtest : List Row) :
    predict { r with random_state := s } Xtest = predict r Xtest := rfl

/-- `_check_parameters` never reads `random_state`; it only threads it
through. -/
theorem checkParameters_rs (r : MapieRegressor) (s : Option ℤ) :
    checkParameters { r with random_state := s } =
      match checkParameters r with
      | Except.error t => Except.error { t with random_state := s }
      | Except.ok t => Except.ok { t with random_state := s } := by
  unfold checkParameters
  by_cases h1 : 0 < r.alpha ∧ r.alpha < 1
  · by_cases h2 : r.method ∈ valid_methods
    · by_cases h3 : r.return_pred ∈ valid_return_preds
      · cases hest : r.estimator <;> simp [h1, h2, h3, hest]
      · simp [h1, h2, h3]
    · simp [h1, h2]
  · simp [h1]

/-- With shuffling disabled, `_select_cv` ignores the seed: the two runs
produce the same splits, and objects equal up to `random_state`. -/
theorem selectCV_rs (shuffler : Shuffler) (rb : MapieRegressor) (s : Option ℤ)
    (n : ℕ) (hsh : rb.shuffle = false) :
    (∃ t t', selectCV shuffler { rb with random_state := s } n =
        Except.error t ∧ selectCV shuffler rb n = Except.error t') ∨
    (∃ t t' sp, selectCV shuffler { rb with random_state := s } n =
        Except.ok (t, sp) ∧ selectCV shuffler rb n = Except.ok (t', sp) ∧
      t = { t' with random_state := t.random_state }) := by
  by_cases hcv : rb.method.startsWith ("cv")
  · by_cases hns : 2 ≤ rb.n_splits ∧ rb.n_splits ≤ n
    · have hL : selectCV shuffler { rb with random_state := s } n =
          Except.ok ({ rb with random_state := none },
            kfoldSplits n rb.n_splits (List.range n)) := by
        simp [selectCV, hcv, hsh, hns]
      have hR : selectCV shuffler rb n =
          Except.ok ({ rb with random_state := none },
            kfoldSplits n rb.n_splits (List.range n)) := by
        simp [selectCV, hcv, hsh, hns]
      exact Or.inr ⟨_, _, _, hL, hR, by simp⟩
    · have hL : selectCV shuffler { rb with random_state := s } n =
          Except.error { rb with random_state := none } := by
        simp [selectCV, hcv, hsh, hns]
      have hR : selectCV shuffler rb n =
          Except.error { rb with random_state := none } := by
        simp [selectCV, hcv, hsh, hns]
      exact Or.inl ⟨_, _, hL, hR⟩
  · by_cases hjk : rb.method.startsWith ("jackknife")
    · by_cases hn : 2 ≤ n
      · have hL : selectCV shuffler { rb with random_state := s } n =
            Except.ok ({ rb with random_state := s }, looSplits n) := by
          simp [selectCV, hcv, hjk, hn]
        have hR : selectCV shuffler rb n = Except.ok (rb, looSplits n) := by
          simp [selectCV, hcv, hjk, hn]
        exact Or.inr ⟨_, _, _, hL, hR, rfl⟩
      · have hL : selectCV shuffler { rb with random_state := s } n =
            Except.error { rb with random_state := s } := by
          simp [selectCV, hcv, hjk, hn]
        have hR : selectCV shuffler rb n = Except.error rb := by
          simp [selectCV, hcv, hjk, hn]
        exact Or.inl ⟨_, _, hL, hR⟩
    · have hL : selectCV shuffler { rb with random_state := s } n =
          Except.error { rb with random_state := s } := by
        simp [selectCV, hcv, hjk]
      have hR : selectCV shuffler rb n = Except.error rb := by
        simp [selectCV, hcv, hjk]
      exact Or.inl ⟨_, _, hL, hR⟩

/-- `predictEnsemble` depends only on the `method`, `k_`, `residuals_`,
`alpha` and `return_pred` attributes of the object. -/
theorem predictEnsemble_congr (r r' : MapieRegressor)
    (hm : r.method = r'.method) (hk : r.k_ = r'.k_)
    (hres : r.residuals_ = r'.residuals_) (ha : r.alpha = r'.alpha)
    (hrp : r.return_pred = r'.return_pred) :
    ∀ (Xt : List Row) (sg : Row → ℚ) (es : List (Row → ℚ)),
      predictEnsemble r Xt sg es = predictEnsemble r' Xt sg es := by
  intro Xt sg es
  unfold predictEnsemble
  rw [hm, hk, hres, ha, hrp]

/-- `predict` depends only on the fitted attributes, `method`, `alpha` and
`return_pred` — in particular not on `random_state`. -/
theorem predict_congr (r r' : MapieRegressor) (Xtest : List Row)
    (hse : r.single_estimator_ = r'.single_estimator_)
    (hm : r.method = r'.method) (hres : r.residuals_ = r'.residuals_)
    (ha : r.alpha = r'.alpha) (hests : r.estimators_ = r'.estimators_)
    (hk : r.k_ = r'.k_) (hrp : r.return_pred = r'.return_pred) :
    predict r Xtest = predict r' Xtest := by
  have hpe := predictEnsemble_congr r r' hm hk hres ha hrp
  unfold predict
  simp only [hse, hm, hres, ha, hests, hpe]

/-- With shuffling disabled, two `fit` runs differing only in `random_state`
either both raise, or both succeed with objects that `predict`
identically. -/
theorem fit_rs (shuffler : Shuffler) (r : MapieRegressor) (s : Option ℤ)
    (X : List Row) (y : List ℚ) (hsh : r.shuffle = false) :
    (∃ t t', fit shuffler { r with random_state := s } X y = Except.error t ∧
      fit shuffler r X y = Except.error t') ∨
    (∃ t t', fit shuffler { r with random_state := s } X y = Except.ok t ∧
      fit shuffler r X y = Except.ok t' ∧
      ∀ Xt, predict t Xt = predict t' Xt) := by
  unfold fit
  rw [checkParameters_rs]
  cases hcp : checkParameters r with
  | error t1 => exact Or.inl ⟨_, _, rfl, rfl⟩
  | ok t1 =>
    have hsh1 : t1.shuffle = false := by
      obtain ⟨-, -, -, hshf, -⟩ := checkParameters_fields r t1 hcp
      rw [hshf]; exact hsh
    dsimp only
    by_cases hxy : X.length = y.length ∧ 0 < y.length
    · rw [if_pos hxy, if_pos hxy]
      cases hest : t1.estimator with
      | none => exact Or.inl ⟨_, _, rfl, rfl⟩
      | some est =>
        dsimp only
        by_cases hnv : t1.method = ("naive")
        · rw [if_pos hnv, if_pos hnv]
          exact Or.inr ⟨_, _, rfl, rfl, fun Xt =>
            predict_congr _ _ Xt rfl rfl rfl rfl rfl rfl rfl⟩
        · rw [if_neg hnv, if_neg hnv]
          have hsh2 :
              ({ t1 with estimator := some est,
                         single_estimator_ := some (est X y) } :
                MapieRegressor).shuffle = false := hsh1
          rcases selectCV_rs shuffler
              ({ t1 with estimator := some est,
                         single_estimator_ := some (est X y) })
              s y.length hsh2
            with ⟨a, b, hLa, hRb⟩ | ⟨a, b, sp, hLa, hRb, hrel⟩
          · rw [show (selectCV shuffler
                ({ t1 with estimator := some est, random_state := s,
                           single_estimator_ := some (est X y) }) y.length) =
                Except.error a from hLa, hRb]
            exact Or.inl ⟨_, _, rfl, rfl⟩
          · rw [show (selectCV shuffler
                ({ t1 with estimator := some est, random_state := s,
                           single_estimator_ := some (est X y) }) y.length) =
                Except.ok (a, sp) from hLa, hRb]
            refine Or.inr ⟨_, _, rfl, rfl, fun Xt =>
              predict_congr _ _ Xt ?_ ?_ ?_ ?_ ?_ ?_ ?_⟩ <;>
              · rw [hrel]
                try rfl
    · rw [if_neg hxy, if_neg hxy]
      exact Or.inl ⟨_, _, rfl, rfl⟩

/-- With shuffling disabled, the full fit-then-predict pipeline is
independent of `random_state`. -/
theorem fitPredict_rs (shuffler : Shuffler) (r : MapieRegressor)
    (s : Option ℤ) (X : List Row) (y : List ℚ) (Xtest : List Row)
    (hsh : r.shuffle = false) :
    fitPredict shuffler { r with random_state := s } X y Xtest =
      fitPredict shuffler r X y Xtest := by
  unfold fitPredict
  rcases fit_rs shuffler r s X y hsh with ⟨t, t', hL, hR⟩ | ⟨t, t', hL, hR, hp⟩
  · rw [hL, hR]
  · rw [hL, hR]
    exact hp Xtest

/-- Claim C7: when shuffling is disabled, `random_state` is irrelevant — two
fit-then-predict runs on identical inputs with the same method and
`shuffle = false` but different `random_state` values produce identical
outputs; moreover, for "cv"-prefixed methods the stored seed is forced to the
no-randomness setting (`None`) during `fit`. -/
theorem mapie_c7_seed_irrelevant (shuffler : Shuffler) (r : MapieRegressor)
    (s1 s2 : Option ℤ) (X : List Row) (y : List ℚ) (Xtest : List Row)
    (hsh : r.shuffle = false) :
    fitPredict shuffler { r with random_state := s1 } X y Xtest =
      fitPredict shuffler { r with random_state := s2 } X y Xtest ∧
    (∀ t, r.method.startsWith ("cv") = true →
      fit shuffler { r with random_state := s1 } X y = Except.ok t →
      t.random_state = none) := by
  constructor
  · exact (fitPredict_rs shuffler r s1 X y Xtest hsh).trans
      (fitPredict_rs shuffler r s2 X y Xtest hsh).symm
  · intro t hcv hfit
    obtain ⟨r1, est, hcp, hest, hlen, hpos, hbr⟩ :=
      fit_ok shuffler _ X y t hfit
    obtain ⟨-, hmeth, -, hshf, -, -, -, -, -, -⟩ :=
      checkParameters_fields _ r1 hcp
    have hmeth' : r1.method = r.method := by
      rw [hmeth]
    have hshf' : r1.shuffle = false := by
      rw [hshf]
      exact hsh
    rcases hbr with ⟨hnaive, hr⟩ | ⟨hnn, r3, splits, hsel, hr⟩
    · rw [hnaive] at hmeth'
      rw [← hmeth'] at hcv
      exact absurd hcv (by with_unfolding_all decide)
    · rcases selectCV_ok shuffler _ r3 y.length splits hsel with
        ⟨-, -, -, ⟨hshT, -, -⟩ | ⟨-, hr3, -⟩⟩ | ⟨hncv, -, -, -, -⟩
      · rw [show ({ r1 with single_estimator_ := some (est X y) } :
            MapieRegressor).shuffle = r1.shuffle from rfl, hshf'] at hshT
        exact absurd hshT (by simp)
      · rw [hr, hr3]
        simp [fitFolds]
      · rw [show ({ r1 with single_estimator_ := some (est X y) } :
            MapieRegressor).method = r1.method from rfl, hmeth', hcv] at hncv
        exact absurd hncv (by simp)

/-- The C7 witness configuration: `cv` method, shuffling disabled. -/
def mrC7 : MapieRegressor :=
  { estimator := some estConst, alpha := 1/4, method := ("cv"), n_splits := 2,
    shuffle := false, return_pred := ("single"), random_state := none }

/-- Witness for C7: two concrete seeds, identical pipelines. -/
theorem mapie_c7_witness :
    mrC7.shuffle = false ∧
    (fitPredict shuffler0 { mrC7 with random_state := some 3 }
        [[0], [1], [2]] [1, 2, 3] [[5]] =
      fitPredict shuffler0 { mrC7 with random_state := some 4 }
        [[0], [1], [2]] [1, 2, 3] [[5]] ∧
    (∀ t, mrC7.method.startsWith ("cv") = true →
      fit shuffler0 { mrC7 with random_state := some 3 }
          [[0], [1], [2]] [1, 2, 3] = Except.ok t →
      t.random_state = none)) :=
  ⟨rfl, mapie_c7_seed_irrelevant shuffler0 mrC7 (some 3) (some 4)
    [[0], [1], [2]] [1, 2, 3] [[5]] rfl⟩

/-- A pass of index-writes leaves untouched positions alone. -/
theorem foldl_set_get_not_mem (is : List ℕ) (a : List α) (g : ℕ → α) (j : ℕ)
    (h : ¬ j ∈ is) :
    (is.foldl (fun b i => b.set i (g i)) a)[j]? = a[j]? := by
  induction is generalizing a with
  | nil => rfl
  | cons i t ih =>
    rw [List.foldl_cons, ih _ (fun hj => h (List.mem_cons_of_mem i hj))]
    exact List.getElem?_set_ne
      (fun he => h (by rw [← he]; exact List.mem_cons_self i t))

/-- A pass of index-writes stores `g j` at every written position `j`. -/
theorem foldl_set_get_mem (is : List ℕ) (a : List α) (g : ℕ → α) (j : ℕ)
    (hj : j < a.length) (h : j ∈ is) :
    (is.foldl (fun b i => b.set i (g i)) a)[j]? = some (g j) := by
  induction is generalizing a with
  | nil => cases h
  | cons i t ih =>
    rw [List.foldl_cons]
    by_cases hjt : j ∈ t
    · exact ih _ (by rw [List.length_set]; exact hj) hjt
    · have hij : i = j := by
        rcases List.mem_cons.mp h with he | ht
        · exact he.symm
        · exact absurd ht hjt
      rw [foldl_set_get_not_mem t _ g j hjt, hij]
      exact List.getElem?_set_self hj

/-- The fold-assignment loop leaves positions in no validation fold alone. -/
theorem buildKAux_get_not_mem (splits : List (List ℕ × List ℕ)) (k : ℕ)
    (acc : List ℕ) (j : ℕ) (h : ∀ p ∈ splits, ¬ j ∈ p.2) :
    (buildKAux k splits acc)[j]? = acc[j]? := by
  induction splits generalizing k acc with
  | nil => rfl
  | cons p rest ih =>
    rw [buildKAux, ih (k + 1) _ (fun q hq => h q (List.mem_cons_of_mem p hq)),
      foldl_set_get_not_mem _ _ _ j (h p (List.mem_cons_self p rest))]

/-- The fold-assignment loop writes, at each training index, the counter of
the unique fold whose validation set contains it. -/
theorem buildKAux_get (splits : List (List ℕ × List ℕ)) (k : ℕ) (acc : List ℕ)
    (j t : ℕ) (hj : j < acc.length) (ht : t < splits.length)
    (hmem : j ∈ (splits.get ⟨t, ht⟩).2)
    (huniq : ∀ u, (hu : u < splits.length) → j ∈ (splits.get ⟨u, hu⟩).2 → u = t) :
    (buildKAux k splits acc)[j]? = some (k + t) := by
  induction splits generalizing k acc t with
  | nil => exact absurd ht (by simp)
  | cons p rest ih =>
    rw [buildKAux]
    cases t with
    | zero =>
      have hrest : ∀ q ∈ rest, ¬ j ∈ q.2 := by
        intro q hq hjq
        obtain ⟨u, hque⟩ := List.mem_iff_get.mp hq
        have hu1 : u.1 + 1 < (p :: rest).length := by
          rw [List.length_cons]
          omega
        have := huniq (u.1 + 1) hu1 (by
          rw [List.get_cons_succ]
          rw [show rest.get ⟨u.1, by omega⟩ = q from by
            rw [← hque]]
          exact hjq)
        omega
      rw [buildKAux_get_not_mem rest (k + 1) _ j hrest,
        foldl_set_get_mem p.2 acc (fun _ => k) j hj hmem, Nat.add_zero]
    | succ t' =>
      have hjp : ¬ j ∈ p.2 := by
        intro hjp
        have := huniq 0 (by rw [List.length_cons]; omega) hjp
        omega
      have ht' : t' < rest.length := by
        rw [List.length_cons] at ht
        omega
      have harr : k + 1 + t' = k + (t' + 1) := by omega
      rw [ih (k + 1) _ t' (by rw [foldl_set_length]; exact hj) ht'
          (by rw [List.get_cons_succ] at hmem; exact hmem)
          (fun u hu hju => by
            have hu1 : u + 1 < (p :: rest).length := by
              rw [List.length_cons]
              omega
            have := huniq (u + 1) hu1 (by rw [List.get_cons_succ]; exact hju)
            omega),
        harr]

/-- Chunking then concatenating recovers a prefix of the list. -/
theorem takeChunks_join (ss : List ℕ) (xs : List ℕ) :
    (takeChunks ss xs).flatten = xs.take ss.sum := by
  induction ss generalizing xs with
  | nil => simp [takeChunks]
  | cons s t ih =>
    rw [takeChunks, List.flatten_cons, ih, List.sum_cons, List.take_add]

/-- Sums of pointwise sums split. -/
theorem sum_map_add_split (l : List ℕ) (f g : ℕ → ℕ) :
    (l.map (fun i => f i + g i)).sum = (l.map f).sum + (l.map g).sum := by
  induction l with
  | nil => rfl
  | cons a t ih =>
    simp only [List.map_cons, List.sum_cons, ih]
    omega

/-- Sum of a constant map. -/
theorem sum_map_const_nat (l : List ℕ) (c : ℕ) :
    (l.map (fun _ => c)).sum = l.length * c := by
  induction l with
  | nil => simp
  | cons a t ih =>
    simp only [List.map_cons, List.sum_cons, ih, List.length_cons]
    ring

/-- Sum of the indicator of `i < rm` over `range k`. -/
theorem sum_indicator_range (k rm : ℕ) :
    ((List.range k).map (fun i => if i < rm then 1 else 0)).sum = min rm k := by
  induction k with
  | zero => simp
  | succ k ih =>
    rw [List.range_succ, List.map_append, List.sum_append, ih]
    simp only [List.map_cons, List.map_nil, List.sum_cons, List.sum_nil]
    by_cases h : k < rm
    · rw [if_pos h]
      omega
    · rw [if_neg h]
      omega

/-- The `sklearn` fold sizes add up to the number of samples. -/
theorem foldSizes_sum (n k : ℕ) (hk : 0 < k) : (foldSizes n k).sum = n := by
  have h1 : foldSizes n k =
      (List.range k).map (fun i => n / k + (if i < n % k then 1 else 0)) := by
    unfold foldSizes
    congr 1
    funext i
    by_cases h : i < n % k <;> simp [h]
  rw [h1, sum_map_add_split, sum_map_const_nat, List.length_range,
    sum_indicator_range, min_eq_left (le_of_lt (Nat.mod_lt n hk))]
  exact Nat.div_add_mod n k

/-- Every index below `n` lies in exactly one validation chunk of a K-fold
split of a permutation of `range n`. -/
theorem kfold_chunk_exists_unique (n k : ℕ) (order : List ℕ)
    (horder : order.Perm (List.range n)) (hk : 0 < k) (j : ℕ) (hj : j < n) :
    ∃ t, ∃ ht : t < (takeChunks (foldSizes n k) order).length,
      j ∈ (takeChunks (foldSizes n k) order).get ⟨t, ht⟩ ∧
      ∀ u, (hu : u < (takeChunks (foldSizes n k) order).length) →
        j ∈ (takeChunks (foldSizes n k) order).get ⟨u, hu⟩ → u = t := by
  have hlen : order.length = n := by
    rw [horder.length_eq, List.length_range]
  have hjoin : (takeChunks (foldSizes n k) order).flatten = order := by
    rw [takeChunks_join, foldSizes_sum n k hk, ← hlen, List.take_length]
  have hjo : j ∈ (takeChunks (foldSizes n k) order).flatten := by
    rw [hjoin]
    exact horder.mem_iff.mpr (List.mem_range.mpr hj)
  obtain ⟨l, hl, hjl⟩ := List.mem_flatten.mp hjo
  obtain ⟨u0, hu0e⟩ := List.mem_iff_get.mp hl
  have hnd : (takeChunks (foldSizes n k) order).flatten.Nodup := by
    rw [hjoin]
    exact horder.symm.nodup (List.nodup_range n)
  have hpw := (List.nodup_flatten.mp hnd).2
  have hget := List.pairwise_iff_get.mp hpw
  refine ⟨u0.1, u0.2, by rw [show (⟨u0.1, u0.2⟩ : Fin _) = u0 from rfl, hu0e]; exact hjl, ?_⟩
  intro u hu hju
  by_contra hne
  rcases Nat.lt_or_ge u u0.1 with hlt2 | hge
  · exact hget ⟨u, hu⟩ u0 hlt2 hju (hu0e ▸ hjl)
  · have hlt3 : u0 < (⟨u, hu⟩ : Fin _) := by
      rw [Fin.lt_def]
      simp only []
      omega
    exact hget u0 ⟨u, hu⟩ hlt3 (hu0e ▸ hjl) hju

/-- `k_[j]` is the index of the unique fold whose validation set contains
`j`. -/
theorem buildK_get (n : ℕ) (splits : List (List ℕ × List ℕ)) (j t : ℕ)
    (hj : j < n) (ht : t < splits.length)
    (hmem : j ∈ (splits.get ⟨t, ht⟩).2)
    (huniq : ∀ u, (hu : u < splits.length) → j ∈ (splits.get ⟨u, hu⟩).2 → u = t) :
    (buildK n splits)[j]? = some t := by
  rw [buildK, buildKAux_get splits 0 _ j t
      (by rw [List.length_replicate]; exact hj) ht hmem huniq, Nat.zero_add]

/-- In a K-fold split of a permuted index range, the fold recorded in `k_`
for a training index `j` has `j` in its validation set and not in its train
set. -/
theorem kfold_buildK_pairing (n k : ℕ) (order : List ℕ)
    (horder : order.Perm (List.range n)) (hk : 0 < k) (j : ℕ) (hj : j < n) :
    (buildK n (kfoldSplits n k order)).getD j 0 < (kfoldSplits n k order).length ∧
    j ∈ ((kfoldSplits n k order).getD
      ((buildK n (kfoldSplits n k order)).getD j 0) ([], [])).2 ∧
    ¬ j ∈ ((kfoldSplits n k order).getD
      ((buildK n (kfoldSplits n k order)).getD j 0) ([], [])).1 := by
  obtain ⟨t, ht, hmem, huniq⟩ := kfold_chunk_exists_unique n k order horder hk j hj
  have hts : t < (kfoldSplits n k order).length := by
    rw [kfoldSplits_length]
    rw [takeChunks_length, foldSizes_length] at ht
    exact ht
  have hval : ∀ u, (hu : u < (kfoldSplits n k order).length) →
      ((kfoldSplits n k order).get ⟨u, hu⟩).2 =
        (takeChunks (foldSizes n k) order).get
          ⟨u, by rw [kfoldSplits_length] at hu
                 rw [takeChunks_length, foldSizes_length]
                 exact hu⟩ := by
    intro u hu
    rw [List.get_eq_getElem, List.get_eq_getElem]
    simp only [kfoldSplits, List.getElem_map]
  have hkv : (buildK n (kfoldSplits n k order))[j]? = some t := by
    apply buildK_get n _ j t hj hts
    · rw [hval t hts]
      exact hmem
    · intro u hu hju
      rw [hval u hu] at hju
      exact huniq u _ hju
  have hgd : (buildK n (kfoldSplits n k order)).getD j 0 = t := by
    rw [List.getD_eq_getElem?_getD, hkv]
    rfl
  rw [hgd]
  refine ⟨hts, ?_, ?_⟩
  · have := hval t hts
    rw [List.get_eq_getElem] at this
    rw [List.getD_eq_getElem?_getD, List.getElem?_eq_getElem hts]
    show j ∈ ((kfoldSplits n k order)[t]).2
    rw [this]
    exact hmem
  · have hvt := hval t hts
    rw [List.get_eq_getElem] at hvt
    rw [List.getD_eq_getElem?_getD, List.getElem?_eq_getElem hts]
    show ¬ j ∈ ((kfoldSplits n k order)[t]).1
    intro hjtrain
    have h1 : ((kfoldSplits n k order)[t]).1 =
        (List.range n).filter
          (fun i => !(((takeChunks (foldSizes n k) order).get
            ⟨t, by rw [kfoldSplits_length] at hts
                   rw [takeChunks_length, foldSizes_length]
                   exact hts⟩).contains i)) := by
      simp only [kfoldSplits, List.getElem_map, List.get_eq_getElem]
    rw [h1, List.mem_filter] at hjtrain
    have hcontains := hjtrain.2
    rw [Bool.not_eq_eq_eq_not, Bool.not_true] at hcontains
    have : j ∈ ((takeChunks (foldSizes n k) order).get
        ⟨t, by rw [kfoldSplits_length] at hts
               rw [takeChunks_length, foldSizes_length]
               exact hts⟩) := by
      rw [List.get_eq_getElem] at hmem ⊢
      exact hmem
    rw [List.contains, List.elem_eq_mem, decide_eq_false_iff_not] at hcontains
    exact hcontains this

/-- `getD` through a `map`, below the length. -/
theorem getD_map_lt (f : α → β) (l : List α) (i : ℕ) (hi : i < l.length)
    (d : β) (dd : α) : (l.map f).getD i d = f (l.getD i dd) := by
  rw [List.getD_eq_getElem?_getD, List.getD_eq_getElem?_getD,
    List.getElem?_eq_getElem (by rw [List.length_map]; exact hi),
    List.getElem?_eq_getElem hi, List.getElem_map]
  rfl

/-- Claim C1: for the `cv_plus` method, `predict` re-indexes the columns of
the per-fold prediction matrix by the fold-assignment vector `k_`, so that,
for every training index `j`, the prediction paired with `residual[j]` is the
one made by the fold model whose validation set contained row `j` — that is,
the model trained on a train fold that excludes row `j`. -/
theorem mapie_c1_cvplus_reindex (shuffler : Shuffler) (r0 : MapieRegressor)
    (X : List Row) (y : List ℚ) (r : MapieRegressor)
    (hfit : fit shuffler r0 X y = Except.ok r)
    (hm : r.method = ("cv_plus"))
    (hperm : ∀ seed, (shuffler seed y.length).Perm (List.range y.length)) :
    ∃ est s ests res kvec splits,
      r.estimator = some est ∧ r.single_estimator_ = some s ∧
      r.estimators_ = some ests ∧ r.residuals_ = some res ∧ r.k_ = some kvec ∧
      ests = trainedEstimators est X y splits ∧
      ests.length = splits.length ∧ kvec.length = y.length ∧
      res.length = y.length ∧
      (∀ Xtest, predict r Xtest = Except.ok (zip3
        (if r.return_pred = ("median")
          then (Xtest.map (fun x => ests.map (fun e => e x))).map npMedian
          else Xtest.map s)
        ((((Xtest.map (fun x => ests.map (fun e => e x))).map
            (reindexRow kvec)).map
            (fun row => List.zipWith (fun p rr => p - rr) row res)).map
          (fun row => quantileLowerVal row r.alpha))
        ((((Xtest.map (fun x => ests.map (fun e => e x))).map
            (reindexRow kvec)).map
            (fun row => List.zipWith (fun p rr => p + rr) row res)).map
          (fun row => quantileHigherVal row (1 - r.alpha))))) ∧
      (∀ j, j < y.length →
        kvec.getD j 0 < splits.length ∧
        j ∈ (splits.getD (kvec.getD j 0) ([], [])).2 ∧
        ¬ j ∈ (splits.getD (kvec.getD j 0) ([], [])).1 ∧
        ests.getD (kvec.getD j 0) (fun _ => 0) =
          est (selectIdx X (splits.getD (kvec.getD j 0) ([], [])).1 [])
              (selectIdx y (splits.getD (kvec.getD j 0) ([], [])).1 0) ∧
        (∀ x : Row,
          (reindexRow kvec (ests.map (fun e => e x))).getD j 0 =
            (ests.getD (kvec.getD j 0) (fun _ => 0)) x)) := by
  obtain ⟨r1, est, hcp, hest, hlen, hpos, hbr⟩ := fit_ok shuffler r0 X y r hfit
  obtain ⟨⟨ha0, ha1⟩, -, -, -, -⟩ := checkParameters_ok r0 r1 hcp
  obtain ⟨ha, -, -, -, -, -, -, -, -, -⟩ := checkParameters_fields r0 r1 hcp
  rcases hbr with ⟨hnaive, hr⟩ | ⟨hnn, r3, splits0, hsel, hr⟩
  · exfalso
    have hmeth : r.method = ("naive") := by rw [hr]; exact hnaive
    rw [hmeth] at hm
    exact absurd hm (by with_unfolding_all decide)
  · obtain ⟨hestf, haf, hmf, -, -, -, hsef, -, -, -⟩ :=
      selectCV_ok_fields shuffler _ r3 y.length splits0 hsel
    have hmeth3 : r3.method = r.method := by
      rw [hr]; rfl
    have hs : r.single_estimator_ = some (est X y) := by
      rw [hr]
      show r3.single_estimator_ = _
      rw [hsef]
    have hestr : r.estimator = some est := by
      rw [hr]
      show r3.estimator = _
      rw [hestf]
      exact hest
    rcases selectCV_ok shuffler _ r3 y.length splits0 hsel with
      ⟨-, hns2, hnsn, hsub⟩ | ⟨hncv, -, -, -, -⟩
    · obtain ⟨order, horder, hsplits⟩ :
          ∃ order, order.Perm (List.range y.length) ∧
            splits0 = kfoldSplits y.length
              ({ r1 with single_estimator_ := some (est X y)} :
                MapieRegressor).n_splits order := by
        rcases hsub with ⟨-, -, hsp⟩ | ⟨-, -, hsp⟩
        · exact ⟨_, hperm _, hsp⟩
        · exact ⟨_, List.Perm.refl _, hsp⟩
      have hnsp : 0 < ({ r1 with single_estimator_ := some (est X y)} :
          MapieRegressor).n_splits := by
        omega
      have hests : r.estimators_ = some (trainedEstimators est X y splits0) := by
        rw [hr]; rfl
      have hres : r.residuals_ = some (absDiff y
          (buildOof y.length splits0 (trainedEstimators est X y splits0) X)) := by
        rw [hr]; rfl
      have hk : r.k_ = some (buildK y.length splits0) := by
        rw [hr]; rfl
      have halpha : r.alpha = r0.alpha := by
        rw [hr]
        show r3.alpha = r0.alpha
        rw [haf]
        exact ha
      have h0 : 0 < r.alpha := by rw [halpha]; exact ha0
      have h1 : r.alpha < 1 := by rw [halpha]; exact ha1
      have hkl : (buildK y.length splits0).length = y.length :=
        buildK_length _ _
      have hresl : (absDiff y
          (buildOof y.length splits0 (trainedEstimators est X y splits0) X)).length
          = y.length := by
        rw [absDiff_length, buildOof_length, Nat.min_self]
      have hresne : ¬ (absDiff y
          (buildOof y.length splits0 (trainedEstimators est X y splits0) X)).length
          = 0 := by
        rw [hresl]
        omega
      have hnot3 : ¬ (r.method = ("naive") ∨ r.method = ("jackknife") ∨
          r.method = ("cv")) := by
        rw [hm]
        with_unfolding_all decide
      have hplus : r.method.endsWith ("plus") = true := by
        rw [hm]
        with_unfolding_all decide
      have hrowsP : ∀ {Xtest : List Row} (row : List ℚ),
          row ∈ (if r.method = ("cv_plus")
            then (Xtest.map (fun x =>
                (trainedEstimators est X y splits0).map (fun e => e x))).map
              (reindexRow (r.k_.getD []))
            else Xtest.map (fun x =>
                (trainedEstimators est X y splits0).map (fun e => e x))) →
          ¬ row.length = 0 := by
        intro Xtest row hrow
        rw [if_pos hm, List.mem_map] at hrow
        obtain ⟨prow, -, hrw⟩ := hrow
        rw [← hrw]
        show ¬ (reindexRow (r.k_.getD []) prow).length = 0
        rw [reindexRow, List.length_map, hk, Option.getD_some, hkl]
        omega
      refine ⟨est, est X y, trainedEstimators est X y splits0, _,
        buildK y.length splits0, splits0, hestr, hs, hests, hres, hk, rfl,
        trainedEstimators_length est X y splits0, hkl, hresl, ?_, ?_⟩
      · intro Xtest
        rw [predict_to_ensemble r Xtest _ _ hs hests hnot3,
          predictEnsemble_plus_eval r Xtest _ _ _ hres hplus h0 h1
            (fun row hrow => hrowsP row hrow) hresne]
        rw [if_pos hm, hk, Option.getD_some]
      · intro j hj
        have hpair := kfold_buildK_pairing y.length _ order horder hnsp j hj
        rw [← hsplits] at hpair
        obtain ⟨hlt, hval, htrain⟩ := hpair
        have hlt2 : (buildK y.length splits0).getD j 0 <
            (trainedEstimators est X y splits0).length := by
          rw [trainedEstimators_length]
          exact hlt
        refine ⟨hlt, hval, htrain, ?_, ?_⟩
        · rw [show trainedEstimators est X y splits0 =
              splits0.map (fun tv => est (selectIdx X tv.1 [])
                (selectIdx y tv.1 0)) from rfl,
            getD_map_lt _ splits0 _ hlt (fun _ => 0) ([], [])]
        · intro x
          have hjk : j < (buildK y.length splits0).length := by
            rw [hkl]
            exact hj
          rw [reindexRow, getD_map_lt _ _ j hjk 0 0,
            getD_map_lt _ _ _ hlt2 0 (fun _ => 0)]
    · exfalso
      rw [show ({ r1 with single_estimator_ := some (est X y) } :
          MapieRegressor).method = r3.method from by rw [hmf], hmeth3, hm]
        at hncv
      exact absurd hncv (by with_unfolding_all decide)


/-- Witness for C1 at a concrete `cv_plus` fitted state (the C10 run). -/
theorem mapie_c1_witness :
    fit shuffler0 mrC10 [[0], [1]] [0, 1] = Except.ok c10r ∧
    c10r.method = ("cv_plus") ∧
    (∀ seed, (shuffler0 seed ([0, 1] : List ℚ).length).Perm
      (List.range ([0, 1] : List ℚ).length)) ∧
    ∃ est s ests res kvec splits,
      c10r.estimator = some est ∧ c10r.single_estimator_ = some s ∧
      c10r.estimators_ = some ests ∧ c10r.residuals_ = some res ∧ c10r.k_ = some kvec ∧
      ests = trainedEstimators est [[0], [1]] [0, 1] splits ∧
      ests.length = splits.length ∧ kvec.length = ([0, 1] : List ℚ).length ∧
      res.length = ([0, 1] : List ℚ).length ∧
      (∀ Xtest, predict c10r Xtest = Except.ok (zip3
        (if c10r.return_pred = ("median")
          then (Xtest.map (fun x => ests.map (fun e => e x))).map npMedian
          else Xtest.map s)
        ((((Xtest.map (fun x => ests.map (fun e => e x))).map
            (reindexRow kvec)).map
            (fun row => List.zipWith (fun p rr => p - rr) row res)).map
          (fun row => quantileLowerVal row c10r.alpha))
        ((((Xtest.map (fun x => ests.map (fun e => e x))).map
            (reindexRow kvec)).map
            (fun row => List.zipWith (fun p rr => p + rr) row res)).map
          (fun row => quantileHigherVal row (1 - c10r.alpha))))) ∧
      (∀ j, j < ([0, 1] : List ℚ).length →
        kvec.getD j 0 < splits.length ∧
        j ∈ (splits.getD (kvec.getD j 0) ([], [])).2 ∧
        ¬ j ∈ (splits.getD (kvec.getD j 0) ([], [])).1 ∧
        ests.getD (kvec.getD j 0) (fun _ => 0) =
          est (selectIdx [[0], [1]] (splits.getD (kvec.getD j 0) ([], [])).1 [])
              (selectIdx [0, 1] (splits.getD (kvec.getD j 0) ([], [])).1 0) ∧
        (∀ x : Row,
          (reindexRow kvec (ests.map (fun e => e x))).getD j 0 =
            (ests.getD (kvec.getD j 0) (fun _ => 0)) x)) := by
  have hfit : fit shuffler0 mrC10 [[0], [1]] [0, 1] = Except.ok c10r := by
    with_unfolding_all rfl
  refine ⟨hfit, by with_unfolding_all rfl, fun seed => List.Perm.refl _, ?_⟩
  exact mapie_c1_cvplus_reindex shuffler0 mrC10 [[0], [1]] [0, 1] c10r hfit
    (by with_unfolding_all rfl) (fun seed => List.Perm.refl _)
